import Mathlib

/-!
Verification of the task-tracker recurrence core (`src/utils.ts`).

The program manipulates JavaScript `Date` values through the date-fns
functions `addDays`, `addMonths`, `startOfWeek`, `endOfWeek`, `startOfMonth`,
`endOfMonth`, `isBefore`, `isAfter`, plus the `Date` accessors
`getFullYear/getMonth/getDate/getHours/getMinutes` and the rolling
`new Date(y, monthIndex, day, h, min)` constructor.  All of these are pure
functions on a single local-time timeline, so we model an instant as the
integer number of milliseconds since 1970-01-01T00:00 (local), and give the
standard proleptic-Gregorian conversions between day numbers and civil
`(year, month, day)` triples.  Division is `Int./`, which in Lean core is
Euclidean division and therefore floor division for the positive literal
divisors used here, matching JavaScript's calendar arithmetic.

The civil conversion uses the era decomposition of the Gregorian calendar
(146097-day cycles of 400 March-based years); `civilFromDays` recovers the
year of a day by an approximation-and-correct step so that each arithmetic
fact is within reach of `omega`.
-/

namespace TaskTracker

/-- Milliseconds per day. -/
def msPerDay : Int := 86400000

/-- Civil (proleptic Gregorian) calendar date; `month` is 1-based (1..12). -/
structure CivilDate where
  year : Int
  month : Int
  day : Int
deriving DecidableEq, Repr

/-- Gregorian leap-year predicate. -/
def isLeap (y : Int) : Prop := y % 4 = 0 ∧ (¬ y % 100 = 0 ∨ y % 400 = 0)

instance (y : Int) : Decidable (isLeap y) := by unfold isLeap; infer_instance

/-- Number of days in civil month `m` of year `y`. -/
def daysInMonth (y m : Int) : Int :=
  if m = 2 then (if isLeap y then 29 else 28)
  else if m = 4 ∨ m = 6 ∨ m = 9 ∨ m = 11 then 30 else 31

/-- Day-of-era on which year-of-era `y` (March-based, `0 ≤ y ≤ 400`) starts. -/
def yearStart (y : Int) : Int := 365 * y + y / 4 - y / 100 + y / 400

/-- Day-of-year (March-based) on which shifted month `mp` (`0 ≤ mp ≤ 11`) starts. -/
def monthStart (mp : Int) : Int := (153 * mp + 2) / 5

/-- Year-of-era containing day-of-era `doe`: approximate by dividing by 366,
then correct upward by one when the next year has already started. -/
def yearOfEra (doe : Int) : Int :=
  if yearStart (doe / 366 + 1) ≤ doe then doe / 366 + 1 else doe / 366

/-- Day number (days since 1970-01-01) of the civil date `(y, m, d)`. -/
def daysFromCivil (y m d : Int) : Int :=
  (if m ≤ 2 then y - 1 else y) / 400 * 146097 +
    yearStart ((if m ≤ 2 then y - 1 else y) % 400) +
    monthStart (if m ≤ 2 then m + 9 else m - 3) + d - 1 - 719468

/-- Era (146097-day Gregorian cycle) containing day number `z`. -/
def eraOf (z : Int) : Int := (z + 719468) / 146097

/-- Day-of-era of day number `z`. -/
def doeOf (z : Int) : Int := (z + 719468) % 146097

/-- Day-of-year (March-based) of day number `z`. -/
def doyOf (z : Int) : Int := doeOf z - yearStart (yearOfEra (doeOf z))

/-- Shifted month (0 = March .. 11 = February) of day number `z`. -/
def mpOf (z : Int) : Int := (5 * doyOf z + 2) / 153

/-- Civil month (1..12) of day number `z`. -/
def monthOf (z : Int) : Int := if mpOf z < 10 then mpOf z + 3 else mpOf z - 9

/-- Civil date of day number `z` (days since 1970-01-01). -/
def civilFromDays (z : Int) : CivilDate :=
  ⟨eraOf z * 400 + yearOfEra (doeOf z) + (if monthOf z ≤ 2 then 1 else 0),
    monthOf z,
    doyOf z - monthStart (mpOf z) + 1⟩

theorem yearStart_succ_ge (y : Int) : 365 ≤ yearStart (y + 1) - yearStart y := by
  unfold yearStart; omega

theorem yearStart_succ_le (y : Int) : yearStart (y + 1) - yearStart y ≤ 366 := by
  unfold yearStart
  by_cases h4 : (y + 1) % 400 = 0
  · omega
  · omega

theorem yearStart_succ_leap (y : Int) :
    yearStart (y + 1) - yearStart y = 366 ↔
      ((y + 1) % 4 = 0 ∧ ¬ (y + 1) % 100 = 0) ∨ (y + 1) % 400 = 0 := by
  unfold yearStart
  by_cases h4 : (y + 1) % 400 = 0
  · omega
  · by_cases h1 : (y + 1) % 100 = 0
    · omega
    · omega

theorem yearOfEra_correct (doe : Int) (h0 : 0 ≤ doe) (h1 : doe ≤ 146096) :
    0 ≤ yearOfEra doe ∧ yearOfEra doe ≤ 399 ∧
    yearStart (yearOfEra doe) ≤ doe ∧ doe < yearStart (yearOfEra doe + 1) := by
  unfold yearOfEra yearStart
  split_ifs <;> omega

theorem monthOfDoy_correct (doy : Int) (h0 : 0 ≤ doy) (h1 : doy ≤ 365) :
    0 ≤ (5 * doy + 2) / 153 ∧ (5 * doy + 2) / 153 ≤ 11 ∧
    monthStart ((5 * doy + 2) / 153) ≤ doy ∧
    doy < monthStart ((5 * doy + 2) / 153 + 1) := by
  unfold monthStart
  omega

/-- Sanity check: day number of 2024-01-01 (a Monday). -/
theorem daysFromCivil_20240101 : daysFromCivil 2024 1 1 = 19723 := by decide

/-- Sanity check: civil date of day number 19723. -/
theorem civilFromDays_19723 : civilFromDays 19723 = ⟨2024, 1, 1⟩ := by decide

/-- Evaluating `daysFromCivil` on an era-decomposed year. -/
theorem daysFromCivil_reassemble (era yoe m d : Int) (h0 : 0 ≤ yoe) (h1 : yoe ≤ 399) :
    daysFromCivil (era * 400 + yoe + (if m ≤ 2 then 1 else 0)) m d =
      era * 146097 + yearStart yoe +
        monthStart (if m ≤ 2 then m + 9 else m - 3) + d - 1 - 719468 := by
  unfold daysFromCivil
  split_ifs with h
  · have e1 : (era * 400 + yoe + 1 - 1) / 400 = era := by omega
    have e2 : (era * 400 + yoe + 1 - 1) % 400 = yoe := by omega
    rw [e1, e2]
  · have e1 : (era * 400 + yoe + 0) / 400 = era := by omega
    have e2 : (era * 400 + yoe + 0) % 400 = yoe := by omega
    rw [e1, e2]

set_option maxHeartbeats 1600000 in
/-- Round trip: converting a day number to a civil date and back is the
identity, and the resulting civil date is valid. -/
theorem civilFromDays_valid (z : Int) :
    1 ≤ (civilFromDays z).month ∧ (civilFromDays z).month ≤ 12 ∧
    1 ≤ (civilFromDays z).day ∧
    (civilFromDays z).day ≤ daysInMonth (civilFromDays z).year (civilFromDays z).month ∧
    daysFromCivil (civilFromDays z).year (civilFromDays z).month (civilFromDays z).day = z := by
  have hdoe0 : 0 ≤ doeOf z := by unfold doeOf; omega
  have hdoe1 : doeOf z ≤ 146096 := by unfold doeOf; omega
  obtain ⟨hy0, hy1, hy2, hy3⟩ := yearOfEra_correct (doeOf z) hdoe0 hdoe1
  have hlen0 := yearStart_succ_ge (yearOfEra (doeOf z))
  have hlen1 := yearStart_succ_le (yearOfEra (doeOf z))
  have hdoy_def : doyOf z = doeOf z - yearStart (yearOfEra (doeOf z)) := rfl
  have hdoy0 : 0 ≤ doyOf z := by omega
  have hdoy1 : doyOf z ≤ 365 := by omega
  obtain ⟨hmp0, hmp1, hmp2, hmp3⟩ := monthOfDoy_correct (doyOf z) hdoy0 hdoy1
  have hmp0' : 0 ≤ mpOf z := hmp0
  have hmp1' : mpOf z ≤ 11 := hmp1
  have hmp2' : monthStart (mpOf z) ≤ doyOf z := hmp2
  have hmp3' : doyOf z < monthStart (mpOf z + 1) := hmp3
  clear hmp0 hmp1 hmp2 hmp3
  have hmsv : monthStart (mpOf z) = (153 * mpOf z + 2) / 5 := rfl
  have hmsv1 : monthStart (mpOf z + 1) = (153 * (mpOf z + 1) + 2) / 5 := rfl
  have hz : z = eraOf z * 146097 + doeOf z - 719468 := by unfold eraOf doeOf; omega
  have hmOf : monthOf z = (if mpOf z < 10 then mpOf z + 3 else mpOf z - 9) := rfl
  have hmpBack : (if monthOf z ≤ 2 then monthOf z + 9 else monthOf z - 3) = mpOf z := by
    rw [hmOf]; split_ifs <;> omega
  have hleap : doyOf z = 365 →
      ((yearOfEra (doeOf z) + 1) % 4 = 0 ∧ ¬ (yearOfEra (doeOf z) + 1) % 100 = 0) ∨
        (yearOfEra (doeOf z) + 1) % 400 = 0 := by
    intro h
    refine (yearStart_succ_leap (yearOfEra (doeOf z))).1 ?_
    omega
  refine ⟨?_, ?_, ?_, ?_, ?_⟩
  · show 1 ≤ monthOf z
    rw [hmOf]; split_ifs <;> omega
  · show monthOf z ≤ 12
    rw [hmOf]; split_ifs <;> omega
  · show 1 ≤ doyOf z - monthStart (mpOf z) + 1
    omega
  · show doyOf z - monthStart (mpOf z) + 1 ≤
      daysInMonth (eraOf z * 400 + yearOfEra (doeOf z) + (if monthOf z ≤ 2 then 1 else 0))
        (monthOf z)
    have hb4 : (eraOf z * 400 + yearOfEra (doeOf z) + 1) % 4 =
        (yearOfEra (doeOf z) + 1) % 4 := by omega
    have hb100 : (eraOf z * 400 + yearOfEra (doeOf z) + 1) % 100 =
        (yearOfEra (doeOf z) + 1) % 100 := by omega
    have hb400 : (eraOf z * 400 + yearOfEra (doeOf z) + 1) % 400 =
        (yearOfEra (doeOf z) + 1) % 400 := by omega
    unfold daysInMonth isLeap
    split_ifs <;> omega
  · show daysFromCivil (eraOf z * 400 + yearOfEra (doeOf z) + (if monthOf z ≤ 2 then 1 else 0))
      (monthOf z) (doyOf z - monthStart (mpOf z) + 1) = z
    rw [daysFromCivil_reassemble _ _ _ _ hy0 hy1, hmpBack]
    omega

theorem daysInMonth_ge (y m : Int) : 28 ≤ daysInMonth y m := by
  unfold daysInMonth isLeap; split_ifs <;> omega

theorem daysInMonth_le (y m : Int) : daysInMonth y m ≤ 31 := by
  unfold daysInMonth isLeap; split_ifs <;> omega

theorem daysFromCivil_day (y m d : Int) :
    daysFromCivil y m d = daysFromCivil y m 1 + (d - 1) := by
  unfold daysFromCivil; split_ifs <;> ring

set_option maxHeartbeats 3000000 in
/-- The day after the last day of a month is the first day of the next month. -/
theorem daysFromCivil_next (y m : Int) (hm0 : 1 ≤ m) (hm1 : m ≤ 12) :
    daysFromCivil y m (daysInMonth y m) + 1 =
      (if m = 12 then daysFromCivil (y + 1) 1 1 else daysFromCivil y (m + 1) 1) := by
  by_cases hm2 : m = 2
  · subst hm2
    unfold daysFromCivil daysInMonth isLeap yearStart monthStart
    by_cases h400 : y % 400 = 0 <;> by_cases h100 : y % 100 = 0 <;> by_cases h4 : y % 4 = 0 <;>
      split_ifs <;> omega
  · interval_cases m <;>
      first
      | exact absurd rfl hm2
      | (unfold daysFromCivil daysInMonth isLeap yearStart monthStart
         split_ifs <;> omega)

/-- Day number of the first day of the month with absolute month index `k`
(the index of month `m` of year `y` is `12 * y + m - 1`). -/
def fdom (k : Int) : Int := daysFromCivil (k / 12) (k % 12 + 1) 1

theorem fdom_eq (y m : Int) (h0 : 1 ≤ m) (h1 : m ≤ 12) :
    fdom (12 * y + m - 1) = daysFromCivil y m 1 := by
  have h2 : (12 * y + m - 1) / 12 = y := by omega
  have h3 : (12 * y + m - 1) % 12 + 1 = m := by omega
  unfold fdom
  rw [h2, h3]

theorem fdom_succ (k : Int) :
    fdom (k + 1) = fdom k + daysInMonth (k / 12) (k % 12 + 1) := by
  have h0 : 1 ≤ k % 12 + 1 := by omega
  have h1 : k % 12 + 1 ≤ 12 := by omega
  have h := daysFromCivil_next (k / 12) (k % 12 + 1) h0 h1
  have hd := daysFromCivil_day (k / 12) (k % 12 + 1) (daysInMonth (k / 12) (k % 12 + 1))
  by_cases hk : k % 12 = 11
  · rw [if_pos (show k % 12 + 1 = 12 by omega)] at h
    have e1 : (k + 1) / 12 = k / 12 + 1 := by omega
    unfold fdom
    rw [e1, show (k + 1) % 12 + 1 = 1 by omega]
    omega
  · rw [if_neg (show ¬ k % 12 + 1 = 12 by omega)] at h
    have e1 : (k + 1) / 12 = k / 12 := by omega
    unfold fdom
    rw [e1, show (k + 1) % 12 + 1 = k % 12 + 1 + 1 by omega]
    omega

theorem fdom_add_le (k : Int) (n : Nat) : fdom k + 28 * n ≤ fdom (k + n) := by
  induction n with
  | zero => simp
  | succ n ih =>
    have h := fdom_succ (k + n)
    have hge := daysInMonth_ge ((k + n) / 12) ((k + n) % 12 + 1)
    have e : k + ((n + 1 : Nat) : Int) = k + n + 1 := by push_cast; ring
    rw [e]
    push_cast
    push_cast at ih
    omega

theorem fdom_mono (k k' : Int) (h : k ≤ k') : fdom k ≤ fdom k' := by
  obtain ⟨n, hn⟩ : ∃ n : Nat, k' = k + n := ⟨(k' - k).toNat, by omega⟩
  subst hn
  have := fdom_add_le k n
  omega

theorem daysFromCivil_eq_fdom (y m d : Int) (h0 : 1 ≤ m) (h1 : m ≤ 12) :
    daysFromCivil y m d = fdom (12 * y + m - 1) + (d - 1) := by
  have ha := daysFromCivil_day y m d
  have hb := fdom_eq y m h0 h1
  omega

theorem daysInMonth_idx (y m : Int) (h0 : 1 ≤ m) (h1 : m ≤ 12) :
    daysInMonth ((12 * y + m - 1) / 12) ((12 * y + m - 1) % 12 + 1) = daysInMonth y m := by
  rw [show (12 * y + m - 1) / 12 = y by omega, show (12 * y + m - 1) % 12 + 1 = m by omega]

theorem daysFromCivil_inj (y m d y' m' d' : Int)
    (hm : 1 ≤ m ∧ m ≤ 12) (hd : 1 ≤ d ∧ d ≤ daysInMonth y m)
    (hm' : 1 ≤ m' ∧ m' ≤ 12) (hd' : 1 ≤ d' ∧ d' ≤ daysInMonth y' m')
    (heq : daysFromCivil y m d = daysFromCivil y' m' d') :
    y = y' ∧ m = m' ∧ d = d' := by
  have e1 := daysFromCivil_eq_fdom y m d hm.1 hm.2
  have e2 := daysFromCivil_eq_fdom y' m' d' hm'.1 hm'.2
  obtain ⟨k, hk⟩ : ∃ k, k = 12 * y + m - 1 := ⟨_, rfl⟩
  obtain ⟨k', hk'⟩ : ∃ k', k' = 12 * y' + m' - 1 := ⟨_, rfl⟩
  rw [← hk] at e1
  rw [← hk'] at e2
  have hdim := daysInMonth_idx y m hm.1 hm.2
  have hdim' := daysInMonth_idx y' m' hm'.1 hm'.2
  rw [← hk] at hdim
  rw [← hk'] at hdim'
  have hkk : k = k' := by
    by_contra hne
    rcases lt_or_gt_of_ne hne with h | h
    · have hs := fdom_succ k
      have hmono := fdom_mono (k + 1) k' (by omega)
      omega
    · have hs := fdom_succ k'
      have hmono := fdom_mono (k' + 1) k (by omega)
      omega
  rw [hkk] at e1
  refine ⟨by omega, by omega, by omega⟩

/-- Round trip: a valid civil date is recovered from its day number. -/
theorem daysFromCivil_roundtrip (y m d : Int) (hm0 : 1 ≤ m) (hm1 : m ≤ 12)
    (hd0 : 1 ≤ d) (hd1 : d ≤ daysInMonth y m) :
    civilFromDays (daysFromCivil y m d) = ⟨y, m, d⟩ := by
  obtain ⟨v1, v2, v3, v4, v5⟩ := civilFromDays_valid (daysFromCivil y m d)
  obtain ⟨h1, h2, h3⟩ :=
    daysFromCivil_inj (civilFromDays (daysFromCivil y m d)).year
      (civilFromDays (daysFromCivil y m d)).month
      (civilFromDays (daysFromCivil y m d)).day y m d
      ⟨v1, v2⟩ ⟨v3, v4⟩ ⟨hm0, hm1⟩ ⟨hd0, hd1⟩ v5
  calc civilFromDays (daysFromCivil y m d)
      = ⟨(civilFromDays (daysFromCivil y m d)).year,
          (civilFromDays (daysFromCivil y m d)).month,
          (civilFromDays (daysFromCivil y m d)).day⟩ := rfl
    _ = ⟨y, m, d⟩ := by rw [h1, h2, h3]

/-- Day number (floor division) of an instant in milliseconds. -/
def dayNumber (t : Int) : Int := t / 86400000

/-- Millisecond offset of an instant within its day (always in `[0, 86400000)`). -/
def timeOfDay (t : Int) : Int := t % 86400000

/-- JS `Date.prototype.getFullYear` (local time). -/
def getFullYear (t : Int) : Int := (civilFromDays (dayNumber t)).year

/-- JS `Date.prototype.getMonth`: 0-based month (0 = January). -/
def getMonth (t : Int) : Int := (civilFromDays (dayNumber t)).month - 1

/-- JS `Date.prototype.getDate`: 1-based day of month. -/
def getDate (t : Int) : Int := (civilFromDays (dayNumber t)).day

/-- JS `Date.prototype.getHours`. -/
def getHours (t : Int) : Int := timeOfDay t / 3600000

/-- JS `Date.prototype.getMinutes`. -/
def getMinutes (t : Int) : Int := timeOfDay t % 3600000 / 60000

/-- JS `Date.prototype.getDay`: day of week, 0 = Sunday (1970-01-01 was a Thursday). -/
def getDay (t : Int) : Int := (dayNumber t + 4) % 7

/-- date-fns `addDays`: shift an instant by whole days, preserving time of day. -/
def addDays (t n : Int) : Int := t + n * 86400000

/-- Absolute month index of the month containing `t` (`12 * year + month - 1`). -/
def monthIndex (t : Int) : Int :=
  12 * (civilFromDays (dayNumber t)).year + (civilFromDays (dayNumber t)).month - 1

/-- date-fns `addMonths`: move by `n` whole months; if the target month is shorter,
use its last day; preserve the time of day.  The day number of the result is
written through `fdom` (first day of the target month) plus the clamped
day-of-month offset, which is exactly `daysFromCivil` of the target date. -/
def addMonths (t n : Int) : Int :=
  (fdom (monthIndex t + n) +
      (min (civilFromDays (dayNumber t)).day
          (daysInMonth ((monthIndex t + n) / 12) ((monthIndex t + n) % 12 + 1)) - 1)) * 86400000 +
    timeOfDay t

/-- JS `new Date(y, monthIndex0, d, h, mi)`: the constructor normalizes month
overflow into the year and rolls day overflow into adjacent months, which on the
day-number line is first-of-month of the absolute month index plus `d - 1` days. -/
def mkDate (y monthIdx0 d h mi : Int) : Int :=
  (fdom (12 * y + monthIdx0) + (d - 1)) * 86400000 + h * 3600000 + mi * 60000

/-- date-fns `startOfWeek` with `weekStartsOn: 0`: midnight of the most recent Sunday. -/
def startOfWeek (t : Int) : Int := (dayNumber t - (dayNumber t + 4) % 7) * 86400000

/-- date-fns `endOfWeek` with `weekStartsOn: 0`: last millisecond of the coming Saturday. -/
def endOfWeek (t : Int) : Int := (dayNumber t - (dayNumber t + 4) % 7 + 7) * 86400000 - 1

/-- date-fns `startOfMonth`: midnight of the first day of the month. -/
def startOfMonth (t : Int) : Int :=
  daysFromCivil (civilFromDays (dayNumber t)).year (civilFromDays (dayNumber t)).month 1 *
    86400000

/-- date-fns `endOfMonth`: last millisecond of the last day of the month. -/
def endOfMonth (t : Int) : Int :=
  (daysFromCivil (civilFromDays (dayNumber t)).year (civilFromDays (dayNumber t)).month
      (daysInMonth (civilFromDays (dayNumber t)).year (civilFromDays (dayNumber t)).month) + 1) *
      86400000 - 1

/-- date-fns `isBefore`. -/
def isBefore (a b : Int) : Prop := a < b

/-- date-fns `isAfter`. -/
def isAfter (a b : Int) : Prop := b < a

instance (a b : Int) : Decidable (isBefore a b) := by unfold isBefore; infer_instance

instance (a b : Int) : Decidable (isAfter a b) := by unfold isAfter; infer_instance

theorem timeOfDay_bounds (t : Int) : 0 ≤ timeOfDay t ∧ timeOfDay t < 86400000 := by
  unfold timeOfDay; omega

theorem dayNumber_decompose (t : Int) : t = dayNumber t * 86400000 + timeOfDay t := by
  unfold dayNumber timeOfDay; omega

/-- Adding at least one month yields a strictly later instant. -/
theorem addMonths_lt (t n : Int) (hn : 1 ≤ n) : t < addMonths t n := by
  obtain ⟨v1, v2, v3, v4, v5⟩ := civilFromDays_valid (dayNumber t)
  have hz := daysFromCivil_eq_fdom (civilFromDays (dayNumber t)).year
    (civilFromDays (dayNumber t)).month (civilFromDays (dayNumber t)).day v1 v2
  have hsucc := fdom_succ (12 * (civilFromDays (dayNumber t)).year +
    (civilFromDays (dayNumber t)).month - 1)
  have hidx := daysInMonth_idx (civilFromDays (dayNumber t)).year
    (civilFromDays (dayNumber t)).month v1 v2
  have hmono := fdom_mono
    (12 * (civilFromDays (dayNumber t)).year + (civilFromDays (dayNumber t)).month - 1 + 1)
    (monthIndex t + n) (by unfold monthIndex; omega)
  have hge := daysInMonth_ge ((monthIndex t + n) / 12) ((monthIndex t + n) % 12 + 1)
  have htod := timeOfDay_bounds t
  have hdec := dayNumber_decompose t
  unfold addMonths monthIndex at *
  have hmin : min (civilFromDays (dayNumber t)).day
      (daysInMonth ((12 * (civilFromDays (dayNumber t)).year +
          (civilFromDays (dayNumber t)).month - 1 + n) / 12)
        ((12 * (civilFromDays (dayNumber t)).year +
          (civilFromDays (dayNumber t)).month - 1 + n) % 12 + 1)) =
      if (civilFromDays (dayNumber t)).day ≤
          daysInMonth ((12 * (civilFromDays (dayNumber t)).year +
            (civilFromDays (dayNumber t)).month - 1 + n) / 12)
          ((12 * (civilFromDays (dayNumber t)).year +
            (civilFromDays (dayNumber t)).month - 1 + n) % 12 + 1)
        then (civilFromDays (dayNumber t)).day
        else daysInMonth ((12 * (civilFromDays (dayNumber t)).year +
          (civilFromDays (dayNumber t)).month - 1 + n) / 12)
          ((12 * (civilFromDays (dayNumber t)).year +
            (civilFromDays (dayNumber t)).month - 1 + n) % 12 + 1) :=
    min_def _ _
  rw [hmin]
  split_ifs <;> omega

/-- Civil date of the instant produced by `addMonths`. -/
theorem civil_addMonths (t n : Int) :
    civilFromDays (dayNumber (addMonths t n)) =
      ⟨(monthIndex t + n) / 12, (monthIndex t + n) % 12 + 1,
        min (civilFromDays (dayNumber t)).day
          (daysInMonth ((monthIndex t + n) / 12) ((monthIndex t + n) % 12 + 1))⟩ := by
  obtain ⟨v1, v2, v3, v4, v5⟩ := civilFromDays_valid (dayNumber t)
  have htod := timeOfDay_bounds t
  have hday : dayNumber (addMonths t n) =
      fdom (monthIndex t + n) +
        (min (civilFromDays (dayNumber t)).day
          (daysInMonth ((monthIndex t + n) / 12) ((monthIndex t + n) % 12 + 1)) - 1) := by
    unfold addMonths dayNumber
    omega
  have hvm : 1 ≤ (monthIndex t + n) % 12 + 1 := by omega
  have hvm2 : (monthIndex t + n) % 12 + 1 ≤ 12 := by omega
  have hge := daysInMonth_ge ((monthIndex t + n) / 12) ((monthIndex t + n) % 12 + 1)
  have hd1 : (1 : Int) ≤ min (civilFromDays (dayNumber t)).day
      (daysInMonth ((monthIndex t + n) / 12) ((monthIndex t + n) % 12 + 1)) :=
    le_min v3 (by omega)
  have hd2 : min (civilFromDays (dayNumber t)).day
        (daysInMonth ((monthIndex t + n) / 12) ((monthIndex t + n) % 12 + 1)) ≤
      daysInMonth ((monthIndex t + n) / 12) ((monthIndex t + n) % 12 + 1) :=
    min_le_right _ _
  have he := daysFromCivil_eq_fdom ((monthIndex t + n) / 12) ((monthIndex t + n) % 12 + 1)
    (min (civilFromDays (dayNumber t)).day
      (daysInMonth ((monthIndex t + n) / 12) ((monthIndex t + n) % 12 + 1))) hvm hvm2
  rw [show 12 * ((monthIndex t + n) / 12) + ((monthIndex t + n) % 12 + 1) - 1 =
    monthIndex t + n by omega] at he
  have hdc : dayNumber (addMonths t n) =
      daysFromCivil ((monthIndex t + n) / 12) ((monthIndex t + n) % 12 + 1)
        (min (civilFromDays (dayNumber t)).day
          (daysInMonth ((monthIndex t + n) / 12) ((monthIndex t + n) % 12 + 1))) := by
    omega
  rw [hdc]
  exact daysFromCivil_roundtrip _ _ _ hvm hvm2 hd1 hd2

/-- Absolute month index advances by exactly `n` under `addMonths`. -/
theorem monthIndex_addMonths (t n : Int) : monthIndex (addMonths t n) = monthIndex t + n := by
  show 12 * (civilFromDays (dayNumber (addMonths t n))).year +
      (civilFromDays (dayNumber (addMonths t n))).month - 1 = monthIndex t + n
  rw [civil_addMonths]
  dsimp only
  omega

/-- Time of day is preserved by `addMonths`. -/
theorem timeOfDay_addMonths (t n : Int) : timeOfDay (addMonths t n) = timeOfDay t := by
  have htod := timeOfDay_bounds t
  unfold addMonths timeOfDay
  omega

/-- Recurrence rule, the tagged union from `src/types.d.ts`. -/
inductive Recurrence where
  | none : Recurrence
  | daily (interval : Int) : Recurrence
  | weekly (interval : Int) (weekdays : List Int) : Recurrence
  | monthly (interval : Int) (day : Int) : Recurrence
deriving DecidableEq, Repr

/-- The fields of a `Task` that `expandRecurrence` reads: `id`, the parsed
`dueDate` instant (`parseISO(task.dueDate)` in the source), and the
`recurrence` rule.  The remaining fields of the source `Task` record (name,
priority, status, categories, ...) are never read by the expander. -/
structure Task where
  id : String
  dueDate : Int
  recurrence : Recurrence
deriving DecidableEq, Repr

/-- Occurrence record `{ date, baseId }` pushed by `expandRecurrence`. -/
structure Occ where
  date : Int
  baseId : String
deriving DecidableEq, Repr

/-- First while-loop of the daily branch:
`while (isBefore(d, start)) d = addDays(d, r.interval);`.
The source loop diverges when `interval ≤ 0` and `d < start`; the extra
`0 < interval` guard makes the model total, and every claim about that loop
carries a positive-interval precondition. -/
def dailySkip (interval d startT : Int) : Int :=
  if h : 0 < interval ∧ isBefore d startT then
    dailySkip interval (addDays d interval) startT
  else d
termination_by (startT - d).toNat
decreasing_by unfold isBefore at h; unfold addDays; omega

/-- Second while-loop of the daily branch:
`while (!isAfter(d, end)) { results.push({ date: d, baseId: task.id }); d = addDays(d, r.interval); }`. -/
def dailyCollect (interval d endT : Int) (id : String) : List Occ :=
  if h : 0 < interval ∧ ¬ isAfter d endT then
    ⟨d, id⟩ :: dailyCollect interval (addDays d interval) endT id
  else []
termination_by (endT + 1 - d).toNat
decreasing_by unfold isAfter at h; unfold addDays; omega

/-- While-loop of the weekly branch: per week, iterate the sorted weekday list
and push occurrences that fall inside the window, then advance the week cursor
by `7 * interval` days.  The source sorts with JavaScript's default
`Array.prototype.sort`, which compares string representations; on day-of-week
values (single digits 0..6) that order coincides with the numeric order used
here.  The source sort also happens in place on every iteration of the loop
(see the state-threading model below); the sorted sequence it iterates is the
same on every iteration. -/
def weeklyCollect (interval : Int) (weekdays : List Int) (w startT endT : Int)
    (id : String) : List Occ :=
  if h : 0 < interval ∧ ¬ isAfter w endT then
    (weekdays.insertionSort (· ≤ ·)).filterMap
        (fun wd =>
          if ¬ isBefore (addDays w wd) startT ∧ ¬ isAfter (addDays w wd) endT then
            some ⟨addDays w wd, id⟩
          else Option.none) ++
      weeklyCollect interval weekdays (addDays w (7 * interval)) startT endT id
  else []
termination_by (endT + 1 - w).toNat
decreasing_by unfold isAfter at h; unfold addDays; omega

/-- First while-loop of the monthly branch:
`while (isBefore(m, start)) m = addMonths(m, interval);`. -/
def monthlySkip (interval m startT : Int) : Int :=
  if h : 0 < interval ∧ isBefore m startT then
    monthlySkip interval (addMonths m interval) startT
  else m
termination_by (startT - m).toNat
decreasing_by
  unfold isBefore at h
  have := addMonths_lt m interval (by omega)
  omega

/-- Second while-loop of the monthly branch: per month cursor, build
`new Date(m.getFullYear(), m.getMonth(), day, baseDue.getHours(), baseDue.getMinutes())`
and push it when it falls inside the window, then advance by `interval` months. -/
def monthlyCollect (interval day baseH baseMin m startT endT : Int) (id : String) : List Occ :=
  if h : 0 < interval ∧ ¬ isAfter m endT then
    (if ¬ isBefore (mkDate (getFullYear m) (getMonth m) day baseH baseMin) startT ∧
        ¬ isAfter (mkDate (getFullYear m) (getMonth m) day baseH baseMin) endT then
      [⟨mkDate (getFullYear m) (getMonth m) day baseH baseMin, id⟩]
    else []) ++
      monthlyCollect interval day baseH baseMin (addMonths m interval) startT endT id
  else []
termination_by (endT + 1 - m).toNat
decreasing_by
  unfold isAfter at h
  have := addMonths_lt m interval (by omega)
  omega

/-- Model of `expandRecurrence(task, start, end)` from `src/utils.ts`:
dispatch on the recurrence variant, mirroring the source's branch structure
loop by loop. -/
def expandRecurrence (task : Task) (startT endT : Int) : List Occ :=
  match task.recurrence with
  | Recurrence.none =>
    if ¬ isBefore task.dueDate startT ∧ ¬ isAfter task.dueDate endT then
      [⟨task.dueDate, task.id⟩]
    else []
  | Recurrence.daily interval =>
    dailyCollect interval (dailySkip interval task.dueDate startT) endT task.id
  | Recurrence.weekly interval weekdays =>
    weeklyCollect interval weekdays (startOfWeek (max task.dueDate startT)) startT endT task.id
  | Recurrence.monthly interval day =>
    monthlyCollect interval day (getHours task.dueDate) (getMinutes task.dueDate)
      (monthlySkip interval task.dueDate startT) startT endT task.id

theorem expandRecurrence_none_eq (task : Task) (s e : Int)
    (hr : task.recurrence = Recurrence.none) :
    expandRecurrence task s e =
      if ¬ isBefore task.dueDate s ∧ ¬ isAfter task.dueDate e then
        [⟨task.dueDate, task.id⟩]
      else [] := by
  unfold expandRecurrence; rw [hr]

theorem expandRecurrence_daily_eq (task : Task) (s e i : Int)
    (hr : task.recurrence = Recurrence.daily i) :
    expandRecurrence task s e =
      dailyCollect i (dailySkip i task.dueDate s) e task.id := by
  unfold expandRecurrence; rw [hr]

theorem expandRecurrence_weekly_eq (task : Task) (s e i : Int) (ws : List Int)
    (hr : task.recurrence = Recurrence.weekly i ws) :
    expandRecurrence task s e =
      weeklyCollect i ws (startOfWeek (max task.dueDate s)) s e task.id := by
  unfold expandRecurrence; rw [hr]

theorem expandRecurrence_monthly_eq (task : Task) (s e i day : Int)
    (hr : task.recurrence = Recurrence.monthly i day) :
    expandRecurrence task s e =
      monthlyCollect i day (getHours task.dueDate) (getMinutes task.dueDate)
        (monthlySkip i task.dueDate s) s e task.id := by
  unfold expandRecurrence; rw [hr]

/-- Closed interval of instants, as returned by `monthGridRange`.  The source
field `end` is a reserved word in Lean and is called `endT` here. -/
structure DateInterval where
  start : Int
  endT : Int
deriving DecidableEq, Repr

/-- Model of `monthGridRange(viewDate)` from `src/utils.ts`. -/
def monthGridRange (viewDate : Int) : DateInterval :=
  ⟨startOfWeek (startOfMonth viewDate), endOfWeek (endOfMonth viewDate)⟩

/-- Well-formedness of a recurrence: positive repeat interval.  The task
dialog clamps intervals with `Math.max(1, ...)` before storing, and the spec
requires `interval ≥ 1`; the source loops diverge otherwise. -/
def Recurrence.wfInterval : Recurrence → Prop
  | Recurrence.none => True
  | Recurrence.daily i => 1 ≤ i
  | Recurrence.weekly i _ => 1 ≤ i
  | Recurrence.monthly i _ => 1 ≤ i

instance (r : Recurrence) : Decidable r.wfInterval := by
  unfold Recurrence.wfInterval
  cases r <;> infer_instance

/-- Fuel-indexed mirror of the daily skip loop, exactly as in the source (no
positivity guard): `none` means the loop did not finish within `n` iterations. -/
def dailySkipF : Nat → Int → Int → Int → Option Int
  | 0, _, _, _ => Option.none
  | n + 1, interval, d, startT =>
    if isBefore d startT then dailySkipF n interval (addDays d interval) startT
    else some d

/-- Fuel-indexed mirror of the daily collect loop. -/
def dailyCollectF : Nat → Int → Int → Int → String → Option (List Occ)
  | 0, _, _, _, _ => Option.none
  | n + 1, interval, d, endT, id =>
    if ¬ isAfter d endT then
      Option.map (fun l => ⟨d, id⟩ :: l) (dailyCollectF n interval (addDays d interval) endT id)
    else some []

theorem dailySkipF_mono (i s v : Int) :
    ∀ (n m : Nat) (d : Int), n ≤ m → dailySkipF n i d s = some v →
      dailySkipF m i d s = some v
  | 0, m, d => by intro _ h; simp [dailySkipF] at h
  | n + 1, 0, d => by intro h _; omega
  | n + 1, m + 1, d => by
    intro hnm h
    unfold dailySkipF at h ⊢
    split_ifs at h ⊢
    · exact dailySkipF_mono i s v n m (addDays d i) (by omega) h
    · exact h

theorem dailyCollectF_mono (i e : Int) (id : String) :
    ∀ (n m : Nat) (d : Int) (v : List Occ), n ≤ m → dailyCollectF n i d e id = some v →
      dailyCollectF m i d e id = some v
  | 0, m, d, v => by intro _ h; simp [dailyCollectF] at h
  | n + 1, 0, d, v => by intro h _; omega
  | n + 1, m + 1, d, v => by
    intro hnm h
    unfold dailyCollectF at h ⊢
    split_ifs at h ⊢
    all_goals try exact h
    cases hrec : dailyCollectF n i (addDays d i) e id with
    | none => rw [hrec] at h; exact absurd h (by simp)
    | some l =>
      rw [hrec] at h
      rw [dailyCollectF_mono i e id n m (addDays d i) l (by omega) hrec]
      exact h

theorem dailySkipF_ex (i d s : Int) (hi : 0 < i) :
    ∃ n, dailySkipF n i d s = some (dailySkip i d s) := by
  induction d, s using dailySkip.induct i with
  | case1 d s h ih =>
    obtain ⟨n, hn⟩ := ih
    refine ⟨n + 1, ?_⟩
    unfold dailySkipF
    rw [if_pos h.2]
    conv_rhs => rw [dailySkip]
    rw [dif_pos h]
    exact hn
  | case2 d s h =>
    refine ⟨1, ?_⟩
    unfold dailySkipF
    rw [if_neg (fun hb => h ⟨hi, hb⟩)]
    conv_rhs => rw [dailySkip]
    rw [dif_neg h]

theorem dailyCollectF_ex (i d e : Int) (id : String) (hi : 0 < i) :
    ∃ n, dailyCollectF n i d e id = some (dailyCollect i d e id) := by
  induction d, e, id using dailyCollect.induct i with
  | case1 d e id h ih =>
    obtain ⟨n, hn⟩ := ih
    refine ⟨n + 1, ?_⟩
    unfold dailyCollectF
    rw [if_pos h.2]
    conv_rhs => rw [dailyCollect]
    rw [dif_pos h, hn]
    rfl
  | case2 d e id h =>
    refine ⟨1, ?_⟩
    unfold dailyCollectF
    rw [if_neg (fun hb => h ⟨hi, hb⟩)]
    conv_rhs => rw [dailyCollect]
    rw [dif_neg h]

/-- Fuel-indexed mirror of the weekly loop. -/
def weeklyCollectF : Nat → Int → List Int → Int → Int → Int → String → Option (List Occ)
  | 0, _, _, _, _, _, _ => Option.none
  | n + 1, interval, weekdays, w, startT, endT, id =>
    if ¬ isAfter w endT then
      Option.map
        (fun l =>
          (weekdays.insertionSort (· ≤ ·)).filterMap
            (fun wd =>
              if ¬ isBefore (addDays w wd) startT ∧ ¬ isAfter (addDays w wd) endT then
                some ⟨addDays w wd, id⟩
              else Option.none) ++ l)
        (weeklyCollectF n interval weekdays (addDays w (7 * interval)) startT endT id)
    else some []

/-- Fuel-indexed mirror of the monthly skip loop. -/
def monthlySkipF : Nat → Int → Int → Int → Option Int
  | 0, _, _, _ => Option.none
  | n + 1, interval, m, startT =>
    if isBefore m startT then monthlySkipF n interval (addMonths m interval) startT
    else some m

/-- Fuel-indexed mirror of the monthly collect loop. -/
def monthlyCollectF : Nat → Int → Int → Int → Int → Int → Int → Int → String → Option (List Occ)
  | 0, _, _, _, _, _, _, _, _ => Option.none
  | n + 1, interval, day, baseH, baseMin, m, startT, endT, id =>
    if ¬ isAfter m endT then
      Option.map
        (fun l =>
          (if ¬ isBefore (mkDate (getFullYear m) (getMonth m) day baseH baseMin) startT ∧
              ¬ isAfter (mkDate (getFullYear m) (getMonth m) day baseH baseMin) endT then
            [⟨mkDate (getFullYear m) (getMonth m) day baseH baseMin, id⟩]
          else []) ++ l)
        (monthlyCollectF n interval day baseH baseMin (addMonths m interval) startT endT id)
    else some []

theorem weeklyCollectF_mono (i : Int) (ws : List Int) (s e : Int) (id : String) :
    ∀ (n m : Nat) (w : Int) (v : List Occ), n ≤ m → weeklyCollectF n i ws w s e id = some v →
      weeklyCollectF m i ws w s e id = some v
  | 0, m, w, v => by intro _ h; simp [weeklyCollectF] at h
  | n + 1, 0, w, v => by intro h _; omega
  | n + 1, m + 1, w, v => by
    intro hnm h
    unfold weeklyCollectF at h ⊢
    split_ifs at h ⊢
    all_goals try exact h
    cases hrec : weeklyCollectF n i ws (addDays w (7 * i)) s e id with
    | none => rw [hrec] at h; exact absurd h (by simp)
    | some l =>
      rw [hrec] at h
      rw [weeklyCollectF_mono i ws s e id n m (addDays w (7 * i)) l (by omega) hrec]
      exact h

theorem monthlySkipF_mono (i s v : Int) :
    ∀ (n m : Nat) (c : Int), n ≤ m → monthlySkipF n i c s = some v →
      monthlySkipF m i c s = some v
  | 0, m, c => by intro _ h; simp [monthlySkipF] at h
  | n + 1, 0, c => by intro h _; omega
  | n + 1, m + 1, c => by
    intro hnm h
    unfold monthlySkipF at h ⊢
    split_ifs at h ⊢
    · exact monthlySkipF_mono i s v n m (addMonths c i) (by omega) h
    · exact h

theorem monthlyCollectF_mono (i day bh bm s e : Int) (id : String) :
    ∀ (n m : Nat) (c : Int) (v : List Occ), n ≤ m →
      monthlyCollectF n i day bh bm c s e id = some v →
      monthlyCollectF m i day bh bm c s e id = some v
  | 0, m, c, v => by intro _ h; simp [monthlyCollectF] at h
  | n + 1, 0, c, v => by intro h _; omega
  | n + 1, m + 1, c, v => by
    intro hnm h
    unfold monthlyCollectF at h ⊢
    split_ifs at h ⊢
    all_goals try exact h
    all_goals
      cases hrec : monthlyCollectF n i day bh bm (addMonths c i) s e id with
      | none => rw [hrec] at h; exact absurd h (by simp)
      | some l =>
        rw [hrec] at h
        rw [monthlyCollectF_mono i day bh bm s e id n m (addMonths c i) l (by omega) hrec]
        exact h

theorem weeklyCollectF_ex (i : Int) (ws : List Int) (w s e : Int) (id : String) (hi : 0 < i) :
    ∃ n, weeklyCollectF n i ws w s e id = some (weeklyCollect i ws w s e id) := by
  induction w, s, e, id using weeklyCollect.induct i ws with
  | case1 w s e id h ih =>
    obtain ⟨n, hn⟩ := ih
    refine ⟨n + 1, ?_⟩
    unfold weeklyCollectF
    rw [if_pos h.2]
    conv_rhs => rw [weeklyCollect]
    rw [dif_pos h, hn]
    rfl
  | case2 w s e id h =>
    refine ⟨1, ?_⟩
    unfold weeklyCollectF
    rw [if_neg (fun hb => h ⟨hi, hb⟩)]
    conv_rhs => rw [weeklyCollect]
    rw [dif_neg h]

theorem monthlySkipF_ex (i c s : Int) (hi : 0 < i) :
    ∃ n, monthlySkipF n i c s = some (monthlySkip i c s) := by
  induction c, s using monthlySkip.induct i with
  | case1 c s h ih =>
    obtain ⟨n, hn⟩ := ih
    refine ⟨n + 1, ?_⟩
    unfold monthlySkipF
    rw [if_pos h.2]
    conv_rhs => rw [monthlySkip]
    rw [dif_pos h]
    exact hn
  | case2 c s h =>
    refine ⟨1, ?_⟩
    unfold monthlySkipF
    rw [if_neg (fun hb => h ⟨hi, hb⟩)]
    conv_rhs => rw [monthlySkip]
    rw [dif_neg h]

theorem monthlyCollectF_ex (i day bh bm c s e : Int) (id : String) (hi : 0 < i) :
    ∃ n, monthlyCollectF n i day bh bm c s e id =
      some (monthlyCollect i day bh bm c s e id) := by
  induction c, s, e, id using monthlyCollect.induct i day bh bm with
  | case1 c s e id h ih =>
    obtain ⟨n, hn⟩ := ih
    refine ⟨n + 1, ?_⟩
    unfold monthlyCollectF
    rw [if_pos h.2]
    conv_rhs => rw [monthlyCollect]
    rw [dif_pos h, hn]
    rfl
  | case2 c s e id h =>
    refine ⟨1, ?_⟩
    unfold monthlyCollectF
    rw [if_neg (fun hb => h ⟨hi, hb⟩)]
    conv_rhs => rw [monthlyCollect]
    rw [dif_neg h]

/-- Fuel-indexed mirror of `expandRecurrence`, exactly as in the source (no
positivity guards): `none` means some loop did not finish within `n` iterations. -/
def expandRecurrenceF (n : Nat) (task : Task) (startT endT : Int) : Option (List Occ) :=
  match task.recurrence with
  | Recurrence.none =>
    some (if ¬ isBefore task.dueDate startT ∧ ¬ isAfter task.dueDate endT then
      [⟨task.dueDate, task.id⟩] else [])
  | Recurrence.daily interval =>
    (dailySkipF n interval task.dueDate startT).bind fun d =>
      dailyCollectF n interval d endT task.id
  | Recurrence.weekly interval weekdays =>
    weeklyCollectF n interval weekdays (startOfWeek (max task.dueDate startT)) startT endT
      task.id
  | Recurrence.monthly interval day =>
    (monthlySkipF n interval task.dueDate startT).bind fun m =>
      monthlyCollectF n interval day (getHours task.dueDate) (getMinutes task.dueDate) m
        startT endT task.id

theorem expandRecurrenceF_none_eq (n : Nat) (task : Task) (s e : Int)
    (hr : task.recurrence = Recurrence.none) :
    expandRecurrenceF n task s e =
      some (if ¬ isBefore task.dueDate s ∧ ¬ isAfter task.dueDate e then
        [⟨task.dueDate, task.id⟩] else []) := by
  unfold expandRecurrenceF; rw [hr]

theorem expandRecurrenceF_daily_eq (n : Nat) (task : Task) (s e i : Int)
    (hr : task.recurrence = Recurrence.daily i) :
    expandRecurrenceF n task s e =
      (dailySkipF n i task.dueDate s).bind fun d => dailyCollectF n i d e task.id := by
  unfold expandRecurrenceF; rw [hr]

theorem expandRecurrenceF_weekly_eq (n : Nat) (task : Task) (s e i : Int) (ws : List Int)
    (hr : task.recurrence = Recurrence.weekly i ws) :
    expandRecurrenceF n task s e =
      weeklyCollectF n i ws (startOfWeek (max task.dueDate s)) s e task.id := by
  unfold expandRecurrenceF; rw [hr]

theorem expandRecurrenceF_monthly_eq (n : Nat) (task : Task) (s e i day : Int)
    (hr : task.recurrence = Recurrence.monthly i day) :
    expandRecurrenceF n task s e =
      (monthlySkipF n i task.dueDate s).bind fun m =>
        monthlyCollectF n i day (getHours task.dueDate) (getMinutes task.dueDate) m s e
          task.id := by
  unfold expandRecurrenceF; rw [hr]

theorem expandRecurrenceF_mono (task : Task) (s e : Int) (n m : Nat) (v : List Occ)
    (hnm : n ≤ m) (h : expandRecurrenceF n task s e = some v) :
    expandRecurrenceF m task s e = some v := by
  cases hr : task.recurrence with
  | none =>
    rw [expandRecurrenceF_none_eq n task s e hr] at h
    rw [expandRecurrenceF_none_eq m task s e hr]
    exact h
  | daily i =>
    rw [expandRecurrenceF_daily_eq n task s e i hr] at h
    rw [expandRecurrenceF_daily_eq m task s e i hr]
    cases hskip : dailySkipF n i task.dueDate s with
    | none => rw [hskip] at h; exact absurd h (by simp)
    | some d =>
      rw [hskip] at h
      rw [dailySkipF_mono i s d n m task.dueDate hnm hskip]
      rw [Option.some_bind] at h ⊢
      exact dailyCollectF_mono i e task.id n m d v hnm h
  | weekly i ws =>
    rw [expandRecurrenceF_weekly_eq n task s e i ws hr] at h
    rw [expandRecurrenceF_weekly_eq m task s e i ws hr]
    exact weeklyCollectF_mono i ws s e task.id n m _ v hnm h
  | monthly i day =>
    rw [expandRecurrenceF_monthly_eq n task s e i day hr] at h
    rw [expandRecurrenceF_monthly_eq m task s e i day hr]
    cases hskip : monthlySkipF n i task.dueDate s with
    | none => rw [hskip] at h; exact absurd h (by simp)
    | some c =>
      rw [hskip] at h
      rw [monthlySkipF_mono i s c n m task.dueDate hnm hskip]
      rw [Option.some_bind] at h ⊢
      exact monthlyCollectF_mono i day (getHours task.dueDate) (getMinutes task.dueDate) s e
        task.id n m c v hnm h

/-- With a positive interval, some fuel reproduces the guarded model; this is
the termination statement for the source loops. -/
theorem expandRecurrenceF_ex (task : Task) (s e : Int) (hwf : task.recurrence.wfInterval) :
    ∃ n, expandRecurrenceF n task s e = some (expandRecurrence task s e) := by
  cases hr : task.recurrence with
  | none =>
    refine ⟨1, ?_⟩
    rw [expandRecurrenceF_none_eq 1 task s e hr, expandRecurrence_none_eq task s e hr]
  | daily i =>
    rw [hr] at hwf
    unfold Recurrence.wfInterval at hwf
    obtain ⟨n1, h1⟩ := dailySkipF_ex i task.dueDate s (by omega)
    obtain ⟨n2, h2⟩ := dailyCollectF_ex i (dailySkip i task.dueDate s) e task.id (by omega)
    refine ⟨max n1 n2, ?_⟩
    rw [expandRecurrenceF_daily_eq (max n1 n2) task s e i hr,
      expandRecurrence_daily_eq task s e i hr]
    rw [dailySkipF_mono i s _ n1 (max n1 n2) task.dueDate (Nat.le_max_left n1 n2) h1]
    rw [Option.some_bind]
    exact dailyCollectF_mono i e task.id n2 (max n1 n2) _ _ (Nat.le_max_right n1 n2) h2
  | weekly i ws =>
    rw [hr] at hwf
    unfold Recurrence.wfInterval at hwf
    obtain ⟨n, hn⟩ := weeklyCollectF_ex i ws (startOfWeek (max task.dueDate s)) s e task.id
      (by omega)
    refine ⟨n, ?_⟩
    rw [expandRecurrenceF_weekly_eq n task s e i ws hr,
      expandRecurrence_weekly_eq task s e i ws hr]
    exact hn
  | monthly i day =>
    rw [hr] at hwf
    unfold Recurrence.wfInterval at hwf
    obtain ⟨n1, h1⟩ := monthlySkipF_ex i task.dueDate s (by omega)
    obtain ⟨n2, h2⟩ := monthlyCollectF_ex i day (getHours task.dueDate)
      (getMinutes task.dueDate) (monthlySkip i task.dueDate s) s e task.id (by omega)
    refine ⟨max n1 n2, ?_⟩
    rw [expandRecurrenceF_monthly_eq (max n1 n2) task s e i day hr,
      expandRecurrence_monthly_eq task s e i day hr]
    rw [monthlySkipF_mono i s _ n1 (max n1 n2) task.dueDate (Nat.le_max_left n1 n2) h1]
    rw [Option.some_bind]
    exact monthlyCollectF_mono i day (getHours task.dueDate) (getMinutes task.dueDate) s e
      task.id n2 (max n1 n2) _ _ (Nat.le_max_right n1 n2) h2

/-- Evaluation principle: any fuel run that finishes computes `expandRecurrence`. -/
theorem expandRecurrence_eq_of_fuel (task : Task) (s e : Int) (n : Nat) (l : List Occ)
    (hwf : task.recurrence.wfInterval) (h : expandRecurrenceF n task s e = some l) :
    expandRecurrence task s e = l := by
  obtain ⟨n0, h0⟩ := expandRecurrenceF_ex task s e hwf
  have ha := expandRecurrenceF_mono task s e n (max n n0) l (Nat.le_max_left n n0) h
  have hb := expandRecurrenceF_mono task s e n0 (max n n0) _ (Nat.le_max_right n n0) h0
  rw [ha] at hb
  exact (Option.some_inj.mp hb).symm

/-- Cursor orbit of the daily loops: the value of `d` after `k` iterations. -/
def dailyNth (i d : Int) : Nat → Int
  | 0 => d
  | k + 1 => addDays (dailyNth i d k) i

theorem dailyNth_succ (i d : Int) (k : Nat) :
    dailyNth i d (k + 1) = dailyNth i d k + i * 86400000 := rfl

theorem dailyNth_shift (i d : Int) (k : Nat) :
    dailyNth i (addDays d i) k = dailyNth i d (k + 1) := by
  induction k with
  | zero => rfl
  | succ k ih =>
    rw [dailyNth_succ, ih]
    have := dailyNth_succ i d (k + 1)
    omega

theorem dailyNth_add (i d : Int) (a b : Nat) :
    dailyNth i (dailyNth i d a) b = dailyNth i d (a + b) := by
  induction b with
  | zero => rfl
  | succ b ih =>
    rw [dailyNth_succ, ih, show a + (b + 1) = (a + b) + 1 by omega, dailyNth_succ]

theorem dailyNth_ge (i d : Int) (hi : 0 < i) (k : Nat) : d ≤ dailyNth i d k := by
  induction k with
  | zero => exact le_refl d
  | succ k ih => rw [dailyNth_succ]; omega

theorem dailyNth_le_of_le (i d : Int) (hi : 0 < i) (a b : Nat) (hab : a ≤ b) :
    dailyNth i d a ≤ dailyNth i d b := by
  obtain ⟨c, rfl⟩ : ∃ c, b = a + c := ⟨b - a, by omega⟩
  rw [← dailyNth_add]
  exact dailyNth_ge i (dailyNth i d a) hi c

theorem dailyNth_lt_of_lt (i d : Int) (hi : 0 < i) (a b : Nat) (hab : a < b) :
    dailyNth i d a < dailyNth i d b := by
  obtain ⟨c, rfl⟩ : ∃ c, b = a + 1 + c := ⟨b - a - 1, by omega⟩
  have h1 := dailyNth_ge i (dailyNth i d (a + 1)) hi c
  rw [dailyNth_add] at h1
  have h2 := dailyNth_succ i d a
  omega

theorem dailyNth_index_le (i d : Int) (hi : 0 < i) (a b : Nat)
    (h : dailyNth i d a ≤ dailyNth i d b) : a ≤ b := by
  by_contra hc
  have := dailyNth_lt_of_lt i d hi b a (by omega)
  omega

theorem dailySkip_ge (i d s : Int) (hi : 0 < i) : s ≤ dailySkip i d s := by
  induction d, s using dailySkip.induct i with
  | case1 d s h ih =>
    rw [dailySkip, dif_pos h]
    exact ih
  | case2 d s h =>
    rw [dailySkip, dif_neg h]
    unfold isBefore at h
    omega

theorem dailySkip_orbit (i d s : Int) (hi : 0 < i) :
    ∃ k : Nat, dailySkip i d s = dailyNth i d k := by
  induction d, s using dailySkip.induct i with
  | case1 d s h ih =>
    obtain ⟨k, hk⟩ := ih
    refine ⟨k + 1, ?_⟩
    rw [dailySkip, dif_pos h, hk, dailyNth_shift]
  | case2 d s h =>
    exact ⟨0, by rw [dailySkip, dif_neg h]; rfl⟩

theorem dailySkip_min (i d s : Int) (hi : 0 < i) :
    ∀ k : Nat, s ≤ dailyNth i d k → dailySkip i d s ≤ dailyNth i d k := by
  induction d, s using dailySkip.induct i with
  | case1 d s h ih =>
    intro k hk
    rw [dailySkip, dif_pos h]
    have hk1 : 1 ≤ k := by
      by_contra hc
      have hk0 : k = 0 := by omega
      subst hk0
      unfold isBefore at h
      exact absurd hk (by simpa [dailyNth] using h.2)
    have hsh := dailyNth_shift i d (k - 1)
    rw [show k - 1 + 1 = k by omega] at hsh
    have := ih (k - 1) (by rw [hsh]; exact hk)
    rw [hsh] at this
    exact this
  | case2 d s h =>
    intro k hk
    rw [dailySkip, dif_neg h]
    exact dailyNth_ge i d hi k

/-- Membership in the daily collect loop: exactly the orbit points within the
window end (the skip phase has already ensured the cursor is at or past the
window start, so the source pushes unconditionally). -/
theorem mem_dailyCollect (i : Int) (hi : 0 < i) (d e : Int) (id : String) (x : Occ) :
    x ∈ dailyCollect i d e id ↔
      ∃ k : Nat, x = ⟨dailyNth i d k, id⟩ ∧ dailyNth i d k ≤ e := by
  induction d, e, id using dailyCollect.induct i with
  | case1 d e id h ih =>
    rw [dailyCollect, dif_pos h]
    constructor
    · intro hx
      rcases List.mem_cons.mp hx with hx | hx
      · refine ⟨0, by simpa [dailyNth] using hx, ?_⟩
        unfold isAfter at h
        simpa [dailyNth] using h.2
      · obtain ⟨k, hk1, hk2⟩ := ih.mp hx
        rw [dailyNth_shift] at hk1 hk2
        exact ⟨k + 1, hk1, hk2⟩
    · rintro ⟨k, hk1, hk2⟩
      cases k with
      | zero => exact List.mem_cons.mpr (Or.inl (by simpa [dailyNth] using hk1))
      | succ k =>
        refine List.mem_cons.mpr (Or.inr (ih.mpr ⟨k, ?_, ?_⟩))
        · rw [dailyNth_shift]; exact hk1
        · rw [dailyNth_shift]; exact hk2
  | case2 d e id h =>
    rw [dailyCollect, dif_neg h]
    simp only [List.not_mem_nil, false_iff]
    rintro ⟨k, hk1, hk2⟩
    unfold isAfter at h
    have hge := dailyNth_ge i d hi k
    omega

/-- Cursor orbit of the weekly loop: the week boundary after `k` iterations. -/
def weekNth (i w : Int) : Nat → Int
  | 0 => w
  | k + 1 => addDays (weekNth i w k) (7 * i)

theorem weekNth_succ (i w : Int) (k : Nat) :
    weekNth i w (k + 1) = weekNth i w k + 7 * i * 86400000 := by
  show addDays (weekNth i w k) (7 * i) = _
  unfold addDays
  ring

theorem weekNth_shift (i w : Int) (k : Nat) :
    weekNth i (addDays w (7 * i)) k = weekNth i w (k + 1) := by
  induction k with
  | zero => rfl
  | succ k ih =>
    rw [weekNth_succ, ih]
    have := weekNth_succ i w (k + 1)
    omega

theorem weekNth_ge (i w : Int) (hi : 0 < i) (k : Nat) : w ≤ weekNth i w k := by
  induction k with
  | zero => exact le_refl w
  | succ k ih =>
    have := weekNth_succ i w k
    omega

/-- The weekly cursor stays on values congruent to `w` modulo whole weeks. -/
theorem weekNth_orbit_eq (i w : Int) (k : Nat) :
    weekNth i w k = w + 7 * 86400000 * (i * k) := by
  induction k with
  | zero => simp [weekNth]
  | succ k ih =>
    rw [weekNth_succ, ih]
    push_cast
    ring

/-- Membership in the weekly loop: an occurrence is a sorted-weekday offset from
some visited week boundary, subject to the window checks. -/
theorem mem_weeklyCollect (i : Int) (ws : List Int) (hi : 0 < i) (w s e : Int)
    (id : String) (x : Occ) :
    x ∈ weeklyCollect i ws w s e id ↔
      ∃ (k : Nat) (wd : Int), wd ∈ ws ∧ weekNth i w k ≤ e ∧
        x = ⟨addDays (weekNth i w k) wd, id⟩ ∧
        ¬ addDays (weekNth i w k) wd < s ∧ ¬ e < addDays (weekNth i w k) wd := by
  induction w, s, e, id using weeklyCollect.induct i ws with
  | case1 w s e id h ih =>
    rw [weeklyCollect, dif_pos h]
    constructor
    · intro hx
      rcases List.mem_append.mp hx with hx | hx
      · obtain ⟨wd, hwd, hfx⟩ := List.mem_filterMap.mp hx
        split_ifs at hfx with hcond
        · refine ⟨0, wd, ?_, ?_, ?_, ?_, ?_⟩
          · exact (List.mem_insertionSort _).mp hwd
          · unfold isAfter at h
            show w ≤ e
            omega
          · exact (Option.some_inj.mp hfx).symm
          · exact fun hc => hcond.1 hc
          · exact fun hc => hcond.2 hc
      · obtain ⟨k, wd, h1, h2, h3, h4, h5⟩ := ih.mp hx
        rw [weekNth_shift] at h2 h3 h4 h5
        exact ⟨k + 1, wd, h1, h2, h3, h4, h5⟩
    · rintro ⟨k, wd, h1, h2, h3, h4, h5⟩
      cases k with
      | zero =>
        refine List.mem_append.mpr (Or.inl ?_)
        refine List.mem_filterMap.mpr ⟨wd, (List.mem_insertionSort _).mpr h1, ?_⟩
        rw [if_pos ⟨fun hc => h4 (by simpa [weekNth] using hc),
          fun hc => h5 (by simpa [weekNth] using hc)⟩]
        rw [h3]
        rfl
      | succ k =>
        refine List.mem_append.mpr (Or.inr (ih.mpr ⟨k, wd, h1, ?_, ?_, ?_, ?_⟩))
        · rw [weekNth_shift]; exact h2
        · rw [weekNth_shift]; exact h3
        · rw [weekNth_shift]; exact h4
        · rw [weekNth_shift]; exact h5
  | case2 w s e id h =>
    rw [weeklyCollect, dif_neg h]
    simp only [List.not_mem_nil, false_iff]
    rintro ⟨k, wd, h1, h2, h3, h4, h5⟩
    unfold isAfter at h
    have hge := weekNth_ge i w hi k
    omega

/-- Cursor orbit of the monthly loops. -/
def mNth (i m : Int) : Nat → Int
  | 0 => m
  | k + 1 => addMonths (mNth i m k) i

theorem mNth_succ (i m : Int) (k : Nat) :
    mNth i m (k + 1) = addMonths (mNth i m k) i := rfl

theorem mNth_shift (i m : Int) (k : Nat) :
    mNth i (addMonths m i) k = mNth i m (k + 1) := by
  induction k with
  | zero => rfl
  | succ k ih => rw [mNth_succ, ih, ← mNth_succ]

theorem mNth_ge (i m : Int) (hi : 0 < i) (k : Nat) : m ≤ mNth i m k := by
  induction k with
  | zero => exact le_refl m
  | succ k ih =>
    have := addMonths_lt (mNth i m k) i hi
    rw [← mNth_succ] at this
    omega

theorem mNth_add (i m : Int) (a b : Nat) :
    mNth i (mNth i m a) b = mNth i m (a + b) := by
  induction b with
  | zero => rfl
  | succ b ih =>
    rw [mNth_succ, ih, show a + (b + 1) = (a + b) + 1 by omega, mNth_succ]

theorem mNth_lt_of_lt (i m : Int) (hi : 0 < i) (a b : Nat) (hab : a < b) :
    mNth i m a < mNth i m b := by
  obtain ⟨c, rfl⟩ : ∃ c, b = a + 1 + c := ⟨b - a - 1, by omega⟩
  have h1 := mNth_ge i (mNth i m (a + 1)) hi c
  rw [mNth_add] at h1
  have h2 := addMonths_lt (mNth i m a) i hi
  rw [← mNth_succ] at h2
  omega

theorem mNth_index_le (i m : Int) (hi : 0 < i) (a b : Nat)
    (h : mNth i m a ≤ mNth i m b) : a ≤ b := by
  by_contra hc
  have := mNth_lt_of_lt i m hi b a (by omega)
  omega

theorem monthlySkip_ge (i m s : Int) (hi : 0 < i) : s ≤ monthlySkip i m s ∨
    (monthlySkip i m s = m ∧ ¬ m < s) := by
  induction m, s using monthlySkip.induct i with
  | case1 m s h ih =>
    rw [monthlySkip, dif_pos h]
    rcases ih with ih | ⟨ih1, ih2⟩
    · exact Or.inl ih
    · rw [ih1]
      unfold isBefore at h
      exact Or.inl (by omega)
  | case2 m s h =>
    rw [monthlySkip, dif_neg h]
    unfold isBefore at h
    exact Or.inr ⟨rfl, fun hc => h ⟨hi, hc⟩⟩

theorem monthlySkip_ge' (i m s : Int) (hi : 0 < i) : s ≤ monthlySkip i m s := by
  rcases monthlySkip_ge i m s hi with h | ⟨h1, h2⟩
  · exact h
  · omega

theorem monthlySkip_orbit (i m s : Int) (hi : 0 < i) :
    ∃ k : Nat, monthlySkip i m s = mNth i m k := by
  induction m, s using monthlySkip.induct i with
  | case1 m s h ih =>
    obtain ⟨k, hk⟩ := ih
    refine ⟨k + 1, ?_⟩
    rw [monthlySkip, dif_pos h, hk, mNth_shift]
  | case2 m s h =>
    exact ⟨0, by rw [monthlySkip, dif_neg h]; rfl⟩

theorem monthlySkip_min (i m s : Int) (hi : 0 < i) :
    ∀ k : Nat, s ≤ mNth i m k → monthlySkip i m s ≤ mNth i m k := by
  induction m, s using monthlySkip.induct i with
  | case1 m s h ih =>
    intro k hk
    rw [monthlySkip, dif_pos h]
    have hk1 : 1 ≤ k := by
      by_contra hc
      have hk0 : k = 0 := by omega
      subst hk0
      unfold isBefore at h
      exact absurd hk (by simpa [mNth] using h.2)
    have hsh := mNth_shift i m (k - 1)
    rw [show k - 1 + 1 = k by omega] at hsh
    have := ih (k - 1) (by rw [hsh]; exact hk)
    rw [hsh] at this
    exact this
  | case2 m s h =>
    intro k hk
    rw [monthlySkip, dif_neg h]
    exact mNth_ge i m hi k

/-- The occurrence instant built by the monthly loop from cursor `m`. -/
def monthlyOcc (day baseH baseMin m : Int) : Int :=
  mkDate (getFullYear m) (getMonth m) day baseH baseMin

/-- Membership in the monthly collect loop. -/
theorem mem_monthlyCollect (i day bh bm : Int) (hi : 0 < i) (m s e : Int)
    (id : String) (x : Occ) :
    x ∈ monthlyCollect i day bh bm m s e id ↔
      ∃ k : Nat, mNth i m k ≤ e ∧
        x = ⟨monthlyOcc day bh bm (mNth i m k), id⟩ ∧
        ¬ monthlyOcc day bh bm (mNth i m k) < s ∧
        ¬ e < monthlyOcc day bh bm (mNth i m k) := by
  induction m, s, e, id using monthlyCollect.induct i day bh bm with
  | case1 m s e id h ih =>
    rw [monthlyCollect, dif_pos h]
    constructor
    · intro hx
      rcases List.mem_append.mp hx with hx | hx
      · split_ifs at hx with hcond
        · refine ⟨0, ?_, ?_, ?_, ?_⟩
          · unfold isAfter at h
            show m ≤ e
            omega
          · simpa [mNth, monthlyOcc] using List.mem_singleton.mp hx
          · exact fun hc => hcond.1 hc
          · exact fun hc => hcond.2 hc
        · exact absurd hx (List.not_mem_nil x)
      · obtain ⟨k, h1, h2, h3, h4⟩ := ih.mp hx
        rw [mNth_shift] at h1 h2 h3 h4
        exact ⟨k + 1, h1, h2, h3, h4⟩
    · rintro ⟨k, h1, h2, h3, h4⟩
      cases k with
      | zero =>
        refine List.mem_append.mpr (Or.inl ?_)
        rw [if_pos ⟨fun hc => h3 (by simpa [mNth, monthlyOcc] using hc),
          fun hc => h4 (by simpa [mNth, monthlyOcc] using hc)⟩]
        refine List.mem_singleton.mpr ?_
        simpa [mNth, monthlyOcc] using h2
      | succ k =>
        refine List.mem_append.mpr (Or.inr (ih.mpr ⟨k, ?_, ?_, ?_, ?_⟩)) <;>
          rw [mNth_shift]
        · exact h1
        · exact h2
        · exact h3
        · exact h4
  | case2 m s e id h =>
    rw [monthlyCollect, dif_neg h]
    simp only [List.not_mem_nil, false_iff]
    rintro ⟨k, h1, h2, h3, h4⟩
    unfold isAfter at h
    have hge := mNth_ge i m hi k
    omega

/-- Instant at civil date `(y, m, d)` and wall-clock time `h:mi`, as produced by
`parseISO` for a local ISO datetime string. -/
def civilMs (y m d h mi : Int) : Int :=
  daysFromCivil y m d * 86400000 + h * 3600000 + mi * 60000

/-- Claim C7: with a well-formed recurrence, a degenerate window (`start > end`)
yields the empty occurrence list, without any error. -/
theorem expandRecurrence_empty_of_degenerate (task : Task) (s e : Int)
    (hwf : task.recurrence.wfInterval) (hse : e < s) :
    expandRecurrence task s e = [] := by
  cases hr : task.recurrence with
  | none =>
    rw [expandRecurrence_none_eq task s e hr, if_neg]
    unfold isBefore isAfter
    omega
  | daily i =>
    rw [hr] at hwf
    unfold Recurrence.wfInterval at hwf
    have hge := dailySkip_ge i task.dueDate s (by omega)
    rw [expandRecurrence_daily_eq task s e i hr, dailyCollect, dif_neg]
    intro hc
    exact hc.2 (show isAfter (dailySkip i task.dueDate s) e by unfold isAfter; omega)
  | weekly i ws =>
    rw [hr] at hwf
    unfold Recurrence.wfInterval at hwf
    rw [expandRecurrence_weekly_eq task s e i ws hr]
    rw [List.eq_nil_iff_forall_not_mem]
    intro x hx
    obtain ⟨k, wd, h1, h2, h3, h4, h5⟩ :=
      (mem_weeklyCollect i ws (by omega) _ s e task.id x).mp hx
    omega
  | monthly i day =>
    rw [hr] at hwf
    unfold Recurrence.wfInterval at hwf
    have hge := monthlySkip_ge' i task.dueDate s (by omega)
    rw [expandRecurrence_monthly_eq task s e i day hr, monthlyCollect, dif_neg]
    intro hc
    exact hc.2 (show isAfter (monthlySkip i task.dueDate s) e by unfold isAfter; omega)

/-- Claim C9: under the positive-interval precondition the source loops
terminate: some finite fuel makes the unguarded fuel-indexed mirror of
`expandRecurrence` finish and return exactly the (total) model's finite list. -/
theorem expandRecurrence_terminating (task : Task) (s e : Int)
    (hwf : task.recurrence.wfInterval) :
    ∃ n : Nat, expandRecurrenceF n task s e = some (expandRecurrence task s e) :=
  expandRecurrenceF_ex task s e hwf

/-- Witness for C9 at a concrete daily task. -/
theorem expandRecurrence_terminating_witness :
    ∃ n : Nat, expandRecurrenceF n ⟨"w9", 0, Recurrence.daily 1⟩ 0 86400000 =
      some (expandRecurrence ⟨"w9", 0, Recurrence.daily 1⟩ 0 86400000) :=
  expandRecurrence_terminating ⟨"w9", 0, Recurrence.daily 1⟩ 0 86400000 (by decide)

/-- Claim C6: concrete monthly scenario.  A task due 2024-01-31T10:00 with
recurrence `monthly{interval: 1, day: 28}` over the window from 2024-02-01
to the end of day 2024-04-30 yields exactly the occurrences 02-28 10:00,
03-28 10:00 and 04-28 10:00, in that order. -/
theorem expandRecurrence_monthly_scenario :
    expandRecurrence ⟨"t", civilMs 2024 1 31 10 0, Recurrence.monthly 1 28⟩
      (civilMs 2024 2 1 0 0) (civilMs 2024 4 30 23 59) =
    [⟨civilMs 2024 2 28 10 0, "t"⟩, ⟨civilMs 2024 3 28 10 0, "t"⟩,
      ⟨civilMs 2024 4 28 10 0, "t"⟩] :=
  expandRecurrence_eq_of_fuel _ _ _ 10 _ (by decide) (by decide)

/-- Claim C10: a weekly task can produce an occurrence strictly before its
anchor due date: anchor Monday 2024-01-08T10:00 with `weekdays = [0]` over the
window 2024-01-01..2024-01-31 emits Sunday 2024-01-07T00:00, which is earlier
than the anchor, because the first week cursor is the start of week of
`max(anchor, start)` rather than the anchor itself. -/
theorem expandRecurrence_weekly_before_anchor :
    (⟨civilMs 2024 1 7 0 0, "t"⟩ : Occ) ∈
      expandRecurrence ⟨"t", civilMs 2024 1 8 10 0, Recurrence.weekly 1 [0]⟩
        (civilMs 2024 1 1 0 0) (civilMs 2024 1 31 0 0) ∧
    civilMs 2024 1 7 0 0 < civilMs 2024 1 8 10 0 := by
  have heval : expandRecurrence ⟨"t", civilMs 2024 1 8 10 0, Recurrence.weekly 1 [0]⟩
      (civilMs 2024 1 1 0 0) (civilMs 2024 1 31 0 0) =
      [⟨civilMs 2024 1 7 0 0, "t"⟩, ⟨civilMs 2024 1 14 0 0, "t"⟩,
        ⟨civilMs 2024 1 21 0 0, "t"⟩, ⟨civilMs 2024 1 28 0 0, "t"⟩] :=
    expandRecurrence_eq_of_fuel _ _ _ 10 _ (by decide) (by decide)
  rw [heval]
  decide

theorem startOfWeek_le (t : Int) : startOfWeek t ≤ t := by
  unfold startOfWeek dayNumber
  omega

theorem startOfWeek_mono (a b : Int) (hab : a ≤ b) : startOfWeek a ≤ startOfWeek b := by
  unfold startOfWeek dayNumber
  omega

theorem startOfWeek_diff (a b : Int) (hab : a ≤ b) :
    ∃ j : Nat, startOfWeek b = startOfWeek a + 7 * 86400000 * j := by
  refine ⟨((dayNumber b + 4) / 7 - (dayNumber a + 4) / 7).toNat, ?_⟩
  unfold startOfWeek dayNumber
  omega

theorem weeklyCollect_mono_window (ws : List Int) (w1 w2 s1 s2 e1 e2 : Int) (id : String)
    (hw : ∃ j : Nat, w2 = w1 + 7 * 86400000 * j)
    (hs : s1 ≤ s2) (he : e2 ≤ e1) (x : Occ)
    (hx : x ∈ weeklyCollect 1 ws w2 s2 e2 id) : x ∈ weeklyCollect 1 ws w1 s1 e1 id := by
  obtain ⟨j, hj⟩ := hw
  obtain ⟨k, wd, h1, h2, h3, h4, h5⟩ :=
    (mem_weeklyCollect 1 ws (by omega) w2 s2 e2 id x).mp hx
  have hkey : weekNth 1 w1 (j + k) = weekNth 1 w2 k := by
    rw [weekNth_orbit_eq, weekNth_orbit_eq, hj]
    push_cast
    ring
  refine (mem_weeklyCollect 1 ws (by omega) w1 s1 e1 id x).mpr
    ⟨j + k, wd, h1, ?_, ?_, ?_, ?_⟩
  · rw [hkey]; omega
  · rw [hkey]; exact h3
  · rw [hkey]; omega
  · rw [hkey]; omega

/-- Precondition of the amended window-monotonicity claim: positive interval,
and for weekly recurrences an interval of exactly one week (the counterexample
below shows weekly intervals of two or more violate monotonicity). -/
def Recurrence.monotonicityOk : Recurrence → Prop
  | Recurrence.none => True
  | Recurrence.daily i => 1 ≤ i
  | Recurrence.weekly i _ => i = 1
  | Recurrence.monthly i _ => 1 ≤ i

instance (r : Recurrence) : Decidable r.monotonicityOk := by
  unfold Recurrence.monotonicityOk
  cases r <;> infer_instance

/-- Claim C1, amended: window monotonicity — every occurrence of a run over a
narrower window `[s2, e2] ⊆ [s1, e1]` also appears in the run over the wider
window — holds for `none`, `daily` and `monthly` recurrences with a positive
interval and for `weekly` recurrences with interval exactly 1.  (For weekly
intervals ≥ 2 it fails, because the week cursor starts at the start of week of
`max(anchor, start)`, so the set of visited weeks depends on the window.) -/
theorem expandRecurrence_window_mono (task : Task) (s1 s2 e1 e2 : Int)
    (h12 : s1 ≤ s2) (h22 : s2 ≤ e2) (h21 : e2 ≤ e1)
    (hok : task.recurrence.monotonicityOk) :
    ∀ x ∈ expandRecurrence task s2 e2, x ∈ expandRecurrence task s1 e1 := by
  intro x hx
  cases hr : task.recurrence with
  | none =>
    rw [expandRecurrence_none_eq task s2 e2 hr] at hx
    rw [expandRecurrence_none_eq task s1 e1 hr]
    split_ifs at hx with hc
    · rw [if_pos (show ¬ isBefore task.dueDate s1 ∧ ¬ isAfter task.dueDate e1 by
        unfold isBefore isAfter at hc ⊢; omega)]
      exact hx
    · exact absurd hx (List.not_mem_nil x)
  | daily i =>
    rw [hr] at hok
    unfold Recurrence.monotonicityOk at hok
    have hi : 0 < i := by omega
    rw [expandRecurrence_daily_eq task s2 e2 i hr] at hx
    rw [expandRecurrence_daily_eq task s1 e1 i hr]
    obtain ⟨k2, hk2⟩ := dailySkip_orbit i task.dueDate s2 hi
    obtain ⟨k1, hk1⟩ := dailySkip_orbit i task.dueDate s1 hi
    obtain ⟨k, hxk, hke⟩ := (mem_dailyCollect i hi _ e2 task.id x).mp hx
    have hval : dailyNth i (dailySkip i task.dueDate s2) k = dailyNth i task.dueDate (k2 + k) := by
      rw [hk2, dailyNth_add]
    have hs2d : s2 ≤ dailyNth i (dailySkip i task.dueDate s2) k := by
      have ha := dailySkip_ge i task.dueDate s2 hi
      have hb := dailyNth_ge i (dailySkip i task.dueDate s2) hi k
      omega
    have hmin := dailySkip_min i task.dueDate s1 hi (k2 + k) (by omega)
    rw [hk1] at hmin
    have hidx := dailyNth_index_le i task.dueDate hi k1 (k2 + k) hmin
    refine (mem_dailyCollect i hi _ e1 task.id x).mpr ⟨k2 + k - k1, ?_, ?_⟩
    · rw [hk1, dailyNth_add, show k1 + (k2 + k - k1) = k2 + k by omega, ← hval]
      exact hxk
    · rw [hk1, dailyNth_add, show k1 + (k2 + k - k1) = k2 + k by omega, ← hval]
      omega
  | weekly i ws =>
    rw [hr] at hok
    unfold Recurrence.monotonicityOk at hok
    subst hok
    rw [expandRecurrence_weekly_eq task s2 e2 1 ws hr] at hx
    rw [expandRecurrence_weekly_eq task s1 e1 1 ws hr]
    refine weeklyCollect_mono_window ws _ _ s1 s2 e1 e2 task.id ?_ h12 h21 x hx
    exact startOfWeek_diff _ _ (max_le_max (le_refl task.dueDate) h12)
  | monthly i day =>
    rw [hr] at hok
    unfold Recurrence.monotonicityOk at hok
    have hi : 0 < i := by omega
    rw [expandRecurrence_monthly_eq task s2 e2 i day hr] at hx
    rw [expandRecurrence_monthly_eq task s1 e1 i day hr]
    obtain ⟨k2, hk2⟩ := monthlySkip_orbit i task.dueDate s2 hi
    obtain ⟨k1, hk1⟩ := monthlySkip_orbit i task.dueDate s1 hi
    obtain ⟨k, hke, hxk, hws, hwe⟩ :=
      (mem_monthlyCollect i day (getHours task.dueDate) (getMinutes task.dueDate) hi _ s2 e2
        task.id x).mp hx
    have hval : mNth i (monthlySkip i task.dueDate s2) k = mNth i task.dueDate (k2 + k) := by
      rw [hk2, mNth_add]
    have hs2d : s2 ≤ mNth i (monthlySkip i task.dueDate s2) k := by
      have ha := monthlySkip_ge' i task.dueDate s2 hi
      have hb := mNth_ge i (monthlySkip i task.dueDate s2) hi k
      omega
    have hmin := monthlySkip_min i task.dueDate s1 hi (k2 + k) (by omega)
    rw [hk1] at hmin
    have hidx := mNth_index_le i task.dueDate hi k1 (k2 + k) hmin
    refine (mem_monthlyCollect i day (getHours task.dueDate) (getMinutes task.dueDate) hi _ s1
      e1 task.id x).mpr ⟨k2 + k - k1, ?_, ?_, ?_, ?_⟩
    · rw [hk1, mNth_add, show k1 + (k2 + k - k1) = k2 + k by omega, ← hval]
      omega
    · rw [hk1, mNth_add, show k1 + (k2 + k - k1) = k2 + k by omega, ← hval]
      exact hxk
    · rw [hk1, mNth_add, show k1 + (k2 + k - k1) = k2 + k by omega, ← hval]
      omega
    · rw [hk1, mNth_add, show k1 + (k2 + k - k1) = k2 + k by omega, ← hval]
      omega

/-- Witness for the amended C1 at a concrete daily task and windows. -/
theorem expandRecurrence_window_mono_witness :
    (⟨86400000, "w1"⟩ : Occ) ∈ expandRecurrence ⟨"w1", 0, Recurrence.daily 1⟩ 0
      (4 * 86400000) :=
  expandRecurrence_window_mono ⟨"w1", 0, Recurrence.daily 1⟩ 0 86400000 (4 * 86400000)
    (3 * 86400000) (by omega) (by omega) (by omega) (by decide) ⟨86400000, "w1"⟩
    (by
      have he := expandRecurrence_eq_of_fuel (Task.mk "w1" 0 (Recurrence.daily 1)) 86400000
        (3 * 86400000) 10
        [Occ.mk 86400000 "w1", Occ.mk (2 * 86400000) "w1", Occ.mk (3 * 86400000) "w1"]
        (by decide) (by decide)
      rw [he]
      decide)

/-- Counterexample to claim C1 as stated: the weekly task anchored Monday
2024-01-01 with interval 2 and `weekdays = [0]` emits Sunday 2024-01-21 over
the narrower window starting 2024-01-09 but not over the wider window starting
2024-01-02 (both windows ending 2024-01-31), because enlarging the window
shifts the first week cursor and with a 2-week stride the visited weeks differ. -/
theorem expandRecurrence_window_mono_cex :
    civilMs 2024 1 2 0 0 ≤ civilMs 2024 1 9 0 0 ∧
    civilMs 2024 1 9 0 0 ≤ civilMs 2024 1 31 0 0 ∧
    (⟨civilMs 2024 1 21 0 0, "t"⟩ : Occ) ∈
      expandRecurrence ⟨"t", civilMs 2024 1 1 0 0, Recurrence.weekly 2 [0]⟩
        (civilMs 2024 1 9 0 0) (civilMs 2024 1 31 0 0) ∧
    (⟨civilMs 2024 1 21 0 0, "t"⟩ : Occ) ∉
      expandRecurrence ⟨"t", civilMs 2024 1 1 0 0, Recurrence.weekly 2 [0]⟩
        (civilMs 2024 1 2 0 0) (civilMs 2024 1 31 0 0) := by
  have heval2 : expandRecurrence ⟨"t", civilMs 2024 1 1 0 0, Recurrence.weekly 2 [0]⟩
      (civilMs 2024 1 9 0 0) (civilMs 2024 1 31 0 0) =
      [⟨civilMs 2024 1 21 0 0, "t"⟩] :=
    expandRecurrence_eq_of_fuel _ _ _ 10 _ (by decide) (by decide)
  have heval1 : expandRecurrence ⟨"t", civilMs 2024 1 1 0 0, Recurrence.weekly 2 [0]⟩
      (civilMs 2024 1 2 0 0) (civilMs 2024 1 31 0 0) =
      [⟨civilMs 2024 1 14 0 0, "t"⟩, ⟨civilMs 2024 1 28 0 0, "t"⟩] :=
    expandRecurrence_eq_of_fuel _ _ _ 10 _ (by decide) (by decide)
  rw [heval1, heval2]
  refine ⟨by decide, by decide, by decide, by decide⟩

/-- Claim C3, amended: every occurrence of a weekly task falls at local
midnight (its instant is a whole number of days), whatever the anchor's
time of day: `startOfWeek` truncates the week cursor to midnight, and whole-day
addition preserves that. -/
theorem expandRecurrence_weekly_midnight (task : Task) (s e i : Int) (ws : List Int)
    (hr : task.recurrence = Recurrence.weekly i ws) :
    ∀ x ∈ expandRecurrence task s e, x.date % 86400000 = 0 := by
  intro x hx
  rw [expandRecurrence_weekly_eq task s e i ws hr] at hx
  by_cases hi : 0 < i
  · obtain ⟨k, wd, h1, h2, h3, h4, h5⟩ :=
      (mem_weeklyCollect i ws hi _ s e task.id x).mp hx
    rw [h3]
    show addDays (weekNth i (startOfWeek (max task.dueDate s)) k) wd % 86400000 = 0
    unfold addDays
    rw [weekNth_orbit_eq]
    unfold startOfWeek
    omega
  · rw [weeklyCollect, dif_neg (fun hc => hi hc.1)] at hx
    exact absurd hx (List.not_mem_nil x)

/-- Witness for the amended C3 at a concrete weekly task. -/
theorem expandRecurrence_weekly_midnight_witness :
    (⟨civilMs 2024 1 8 0 0, "w3"⟩ : Occ).date % 86400000 = 0 :=
  expandRecurrence_weekly_midnight ⟨"w3", civilMs 2024 1 8 10 0, Recurrence.weekly 1 [1]⟩
    (civilMs 2024 1 1 0 0) (civilMs 2024 1 31 0 0) 1 [1] rfl
    ⟨civilMs 2024 1 8 0 0, "w3"⟩
    (by
      have he := expandRecurrence_eq_of_fuel
        (Task.mk "w3" (civilMs 2024 1 8 10 0) (Recurrence.weekly 1 [1]))
        (civilMs 2024 1 1 0 0) (civilMs 2024 1 31 0 0) 10
        [Occ.mk (civilMs 2024 1 8 0 0) "w3", Occ.mk (civilMs 2024 1 15 0 0) "w3",
          Occ.mk (civilMs 2024 1 22 0 0) "w3", Occ.mk (civilMs 2024 1 29 0 0) "w3"]
        (by decide) (by decide)
      rw [he]
      decide)

/-- Counterexample to claim C3 as stated: the weekly task anchored Monday
2024-01-08T10:00 emits its Monday occurrences at 00:00, not at the anchor's
10:00, because `startOfWeek` zeroes the time of day. -/
theorem expandRecurrence_weekly_timeofday_cex :
    ∃ x ∈ expandRecurrence ⟨"t", civilMs 2024 1 8 10 0, Recurrence.weekly 1 [1]⟩
        (civilMs 2024 1 1 0 0) (civilMs 2024 1 31 0 0),
      ¬ (getHours x.date = getHours (civilMs 2024 1 8 10 0) ∧
        getMinutes x.date = getMinutes (civilMs 2024 1 8 10 0)) := by
  have heval : expandRecurrence ⟨"t", civilMs 2024 1 8 10 0, Recurrence.weekly 1 [1]⟩
      (civilMs 2024 1 1 0 0) (civilMs 2024 1 31 0 0) =
      [⟨civilMs 2024 1 8 0 0, "t"⟩, ⟨civilMs 2024 1 15 0 0, "t"⟩,
        ⟨civilMs 2024 1 22 0 0, "t"⟩, ⟨civilMs 2024 1 29 0 0, "t"⟩] :=
    expandRecurrence_eq_of_fuel _ _ _ 10 _ (by decide) (by decide)
  rw [heval]
  refine ⟨⟨civilMs 2024 1 8 0 0, "t"⟩, by decide, by decide⟩

/-- Claim C4, amended: duplicated weekday entries do not change the set of
occurrences — membership in the result coincides with the deduplicated task's
result — but each duplicate entry emits its own copy, so the sequences differ
(see the counterexample). -/
theorem expandRecurrence_weekly_dedup_mem (task : Task) (s e i : Int) (ws : List Int)
    (hr : task.recurrence = Recurrence.weekly i ws) (x : Occ) :
    x ∈ expandRecurrence task s e ↔
      x ∈ expandRecurrence { task with recurrence := Recurrence.weekly i ws.dedup } s e := by
  rw [expandRecurrence_weekly_eq task s e i ws hr,
    expandRecurrence_weekly_eq { task with recurrence := Recurrence.weekly i ws.dedup } s e i
      ws.dedup rfl]
  show x ∈ weeklyCollect i ws (startOfWeek (max task.dueDate s)) s e task.id ↔
    x ∈ weeklyCollect i ws.dedup (startOfWeek (max task.dueDate s)) s e task.id
  by_cases hi : 0 < i
  · rw [mem_weeklyCollect i ws hi, mem_weeklyCollect i ws.dedup hi]
    constructor
    · rintro ⟨k, wd, h1, h2, h3, h4, h5⟩
      exact ⟨k, wd, List.mem_dedup.mpr h1, h2, h3, h4, h5⟩
    · rintro ⟨k, wd, h1, h2, h3, h4, h5⟩
      exact ⟨k, wd, List.mem_dedup.mp h1, h2, h3, h4, h5⟩
  · rw [weeklyCollect, dif_neg (fun hc => hi hc.1),
      weeklyCollect, dif_neg (fun hc => hi hc.1)]

/-- Witness for the amended C4 at a concrete weekly task with duplicates. -/
theorem expandRecurrence_weekly_dedup_mem_witness :
    (⟨civilMs 2024 1 1 0 0, "t"⟩ : Occ) ∈
        expandRecurrence ⟨"t", civilMs 2024 1 1 0 0, Recurrence.weekly 1 [1, 1]⟩
          (civilMs 2024 1 1 0 0) (civilMs 2024 1 7 0 0) ↔
      (⟨civilMs 2024 1 1 0 0, "t"⟩ : Occ) ∈
        expandRecurrence ⟨"t", civilMs 2024 1 1 0 0,
            Recurrence.weekly 1 ([1, 1].dedup)⟩
          (civilMs 2024 1 1 0 0) (civilMs 2024 1 7 0 0) :=
  expandRecurrence_weekly_dedup_mem ⟨"t", civilMs 2024 1 1 0 0, Recurrence.weekly 1 [1, 1]⟩
    (civilMs 2024 1 1 0 0) (civilMs 2024 1 7 0 0) 1 [1, 1] rfl ⟨civilMs 2024 1 1 0 0, "t"⟩

/-- Counterexample to claim C4 as stated: with `weekdays = [1, 1]` the Monday
occurrence 2024-01-01 is emitted twice, so the sequence differs from the
deduplicated task's sequence. -/
theorem expandRecurrence_weekly_dup_cex :
    expandRecurrence ⟨"t", civilMs 2024 1 1 0 0, Recurrence.weekly 1 [1, 1]⟩
        (civilMs 2024 1 1 0 0) (civilMs 2024 1 7 0 0) ≠
      expandRecurrence ⟨"t", civilMs 2024 1 1 0 0, Recurrence.weekly 1 [1]⟩
        (civilMs 2024 1 1 0 0) (civilMs 2024 1 7 0 0) := by
  have heval2 : expandRecurrence ⟨"t", civilMs 2024 1 1 0 0, Recurrence.weekly 1 [1, 1]⟩
      (civilMs 2024 1 1 0 0) (civilMs 2024 1 7 0 0) =
      [⟨civilMs 2024 1 1 0 0, "t"⟩, ⟨civilMs 2024 1 1 0 0, "t"⟩] :=
    expandRecurrence_eq_of_fuel _ _ _ 10 _ (by decide) (by decide)
  have heval1 : expandRecurrence ⟨"t", civilMs 2024 1 1 0 0, Recurrence.weekly 1 [1]⟩
      (civilMs 2024 1 1 0 0) (civilMs 2024 1 7 0 0) =
      [⟨civilMs 2024 1 1 0 0, "t"⟩] :=
    expandRecurrence_eq_of_fuel _ _ _ 10 _ (by decide) (by decide)
  rw [heval1, heval2]
  decide

/-- Full well-formedness of a recurrence: positive interval, and weekday values
in the day-of-week range 0..6 (the data model defines `weekdays` as day-of-week
numbers `0 = Sunday .. 6 = Saturday`, and the task dialog only stores such
values). -/
def Recurrence.wf : Recurrence → Prop
  | Recurrence.none => True
  | Recurrence.daily i => 1 ≤ i
  | Recurrence.weekly i ws => 1 ≤ i ∧ ∀ wd ∈ ws, 0 ≤ wd ∧ wd ≤ 6
  | Recurrence.monthly i _ => 1 ≤ i

instance (r : Recurrence) : Decidable r.wf := by
  unfold Recurrence.wf
  cases r <;> infer_instance

theorem dailyCollect_pairwise (i d e : Int) (id : String) (hi : 0 < i) :
    (dailyCollect i d e id).Pairwise (fun a b => a.date ≤ b.date) := by
  induction d, e, id using dailyCollect.induct i with
  | case1 d e id h ih =>
    rw [dailyCollect, dif_pos h]
    refine List.pairwise_cons.mpr ⟨?_, ih⟩
    intro y hy
    obtain ⟨k, hk1, hk2⟩ := (mem_dailyCollect i hi _ e id y).mp hy
    rw [hk1]
    show d ≤ dailyNth i (addDays d i) k
    have h1 := dailyNth_ge i (addDays d i) hi k
    have h2 : addDays d i = d + i * 86400000 := rfl
    omega
  | case2 d e id h =>
    rw [dailyCollect, dif_neg h]
    exact List.Pairwise.nil

theorem weeklyCollect_pairwise (i : Int) (ws : List Int) (w s e : Int) (id : String)
    (hi : 0 < i) (hws : ∀ wd ∈ ws, 0 ≤ wd ∧ wd ≤ 6) :
    (weeklyCollect i ws w s e id).Pairwise (fun a b => a.date ≤ b.date) := by
  induction w, s, e, id using weeklyCollect.induct i ws with
  | case1 w s e id h ih =>
    rw [weeklyCollect, dif_pos h]
    refine List.pairwise_append.mpr ⟨?_, ih, ?_⟩
    · refine List.Pairwise.filterMap _ ?_ (List.sorted_insertionSort (· ≤ ·) ws)
      intro a b hab c hc c' hc'
      rw [Option.mem_def] at hc hc'
      split_ifs at hc hc'
      have hc2 := Option.some_inj.mp hc
      have hc2' := Option.some_inj.mp hc'
      rw [← hc2, ← hc2']
      show addDays w a ≤ addDays w b
      unfold addDays
      omega
    · intro a ha b hb
      obtain ⟨wd, hwd, hfa⟩ := List.mem_filterMap.mp ha
      obtain ⟨k, wd', h1, h2, h3, h4, h5⟩ := (mem_weeklyCollect i ws hi _ s e id b).mp hb
      split_ifs at hfa
      have ha' := Option.some_inj.mp hfa
      rw [← ha', h3]
      show addDays w wd ≤ addDays (weekNth i (addDays w (7 * i)) k) wd'
      have hwd6 := hws wd ((List.mem_insertionSort _).mp hwd)
      have hwd0 := hws wd' h1
      have hge := weekNth_ge i (addDays w (7 * i)) hi k
      unfold addDays at hge ⊢
      omega
  | case2 w s e id h =>
    rw [weeklyCollect, dif_neg h]
    exact List.Pairwise.nil

/-- The monthly occurrence in terms of the first day of the cursor's month. -/
theorem monthlyOcc_eq (day bh bm m : Int) :
    monthlyOcc day bh bm m =
      (fdom (monthIndex m) + (day - 1)) * 86400000 + bh * 3600000 + bm * 60000 := by
  unfold monthlyOcc mkDate getFullYear getMonth
  rw [show 12 * (civilFromDays (dayNumber m)).year + ((civilFromDays (dayNumber m)).month - 1) =
    monthIndex m from by unfold monthIndex; ring]

theorem monthIndex_mNth_ge (i m : Int) (hi : 0 < i) (k : Nat) :
    monthIndex m ≤ monthIndex (mNth i m k) := by
  induction k with
  | zero => exact le_refl _
  | succ k ih =>
    rw [mNth_succ, monthIndex_addMonths]
    omega

theorem monthlyCollect_pairwise (i day bh bm m s e : Int) (id : String) (hi : 0 < i) :
    (monthlyCollect i day bh bm m s e id).Pairwise (fun a b => a.date ≤ b.date) := by
  induction m, s, e, id using monthlyCollect.induct i day bh bm with
  | case1 m s e id h ih =>
    rw [monthlyCollect, dif_pos h]
    refine List.pairwise_append.mpr ⟨?_, ih, ?_⟩
    · split_ifs
      · exact List.pairwise_singleton _ _
      · exact List.Pairwise.nil
    · intro a ha b hb
      split_ifs at ha with hca
      · have ha' := List.mem_singleton.mp ha
        obtain ⟨k, h1, h2, h3, h4⟩ := (mem_monthlyCollect i day bh bm hi _ s e id b).mp hb
        rw [ha', h2]
        show monthlyOcc day bh bm m ≤ monthlyOcc day bh bm (mNth i (addMonths m i) k)
        rw [monthlyOcc_eq, monthlyOcc_eq]
        have hig := monthIndex_mNth_ge i (addMonths m i) hi k
        rw [monthIndex_addMonths] at hig
        have hf := fdom_mono (monthIndex m) (monthIndex (mNth i (addMonths m i) k)) (by omega)
        omega
      · exact absurd ha (List.not_mem_nil a)
  | case2 m s e id h =>
    rw [monthlyCollect, dif_neg h]
    exact List.Pairwise.nil

/-- Claim C5: for a well-formed task the occurrence sequence of a single call
is non-decreasing by date (within a week ascending by weekday, across weeks and
months ascending). -/
theorem expandRecurrence_sorted (task : Task) (s e : Int) (hwf : task.recurrence.wf) :
    (expandRecurrence task s e).Pairwise (fun a b => a.date ≤ b.date) := by
  cases hr : task.recurrence with
  | none =>
    rw [expandRecurrence_none_eq task s e hr]
    split_ifs
    · exact List.pairwise_singleton _ _
    · exact List.Pairwise.nil
  | daily i =>
    rw [hr] at hwf
    unfold Recurrence.wf at hwf
    rw [expandRecurrence_daily_eq task s e i hr]
    exact dailyCollect_pairwise i _ e task.id (by omega)
  | weekly i ws =>
    rw [hr] at hwf
    unfold Recurrence.wf at hwf
    rw [expandRecurrence_weekly_eq task s e i ws hr]
    exact weeklyCollect_pairwise i ws _ s e task.id (by omega) hwf.2
  | monthly i day =>
    rw [hr] at hwf
    unfold Recurrence.wf at hwf
    rw [expandRecurrence_monthly_eq task s e i day hr]
    exact monthlyCollect_pairwise i day _ _ _ s e task.id (by omega)

/-- Witness for C5 at a concrete weekly task. -/
theorem expandRecurrence_sorted_witness :
    (expandRecurrence ⟨"w5", civilMs 2024 1 1 0 0, Recurrence.weekly 1 [1, 3]⟩
        (civilMs 2024 1 1 0 0) (civilMs 2024 1 31 0 0)).Pairwise
      (fun a b => a.date ≤ b.date) :=
  expandRecurrence_sorted ⟨"w5", civilMs 2024 1 1 0 0, Recurrence.weekly 1 [1, 3]⟩
    (civilMs 2024 1 1 0 0) (civilMs 2024 1 31 0 0) (by decide)

/-- Witness for C7: a daily task over a reversed window produces nothing. -/
theorem expandRecurrence_empty_of_degenerate_witness :
    (⟨"w7", 0, Recurrence.daily 1⟩ : Task).recurrence.wfInterval ∧
      (0 : Int) < 86400000 ∧
      expandRecurrence ⟨"w7", 0, Recurrence.daily 1⟩ 86400000 0 = [] :=
  ⟨by decide, by decide,
    expandRecurrence_empty_of_degenerate ⟨"w7", 0, Recurrence.daily 1⟩ 86400000 0
      (by decide) (by decide)⟩

/-- Two instants fall in the same civil calendar year and month, read through
the JS accessors `getFullYear` and `getMonth`. -/
def sameCalendarMonth (t v : Int) : Prop :=
  getFullYear t = getFullYear v ∧ getMonth t = getMonth v

instance (t v : Int) : Decidable (sameCalendarMonth t v) := by
  unfold sameCalendarMonth; infer_instance

/-- Every instant of a calendar month lies at or after that month's start. -/
theorem startOfMonth_le_of_same (t v : Int) (h : sameCalendarMonth t v) :
    startOfMonth v ≤ t := by
  obtain ⟨hy, hm⟩ := h
  unfold getFullYear at hy
  unfold getMonth at hm
  obtain ⟨hm1, hm2, hd1, hd2, hz⟩ := civilFromDays_valid (dayNumber t)
  have haff := daysFromCivil_day (civilFromDays (dayNumber t)).year
    (civilFromDays (dayNumber t)).month (civilFromDays (dayNumber t)).day
  have hdec := dayNumber_decompose t
  have htod := timeOfDay_bounds t
  have hm' : (civilFromDays (dayNumber v)).month =
      (civilFromDays (dayNumber t)).month := by omega
  unfold startOfMonth
  rw [← hy, hm']
  omega

/-- Every instant of a calendar month lies at or before that month's end. -/
theorem le_endOfMonth_of_same (t v : Int) (h : sameCalendarMonth t v) :
    t ≤ endOfMonth v := by
  obtain ⟨hy, hm⟩ := h
  unfold getFullYear at hy
  unfold getMonth at hm
  obtain ⟨hm1, hm2, hd1, hd2, hz⟩ := civilFromDays_valid (dayNumber t)
  have haff := daysFromCivil_day (civilFromDays (dayNumber t)).year
    (civilFromDays (dayNumber t)).month (civilFromDays (dayNumber t)).day
  have haff2 := daysFromCivil_day (civilFromDays (dayNumber t)).year
    (civilFromDays (dayNumber t)).month
    (daysInMonth (civilFromDays (dayNumber t)).year (civilFromDays (dayNumber t)).month)
  have hdec := dayNumber_decompose t
  have htod := timeOfDay_bounds t
  have hm' : (civilFromDays (dayNumber v)).month =
      (civilFromDays (dayNumber t)).month := by omega
  unfold endOfMonth
  rw [← hy, hm']
  omega

theorem endOfWeek_ge (t : Int) : t ≤ endOfWeek t := by
  unfold endOfWeek dayNumber
  omega

/-- Claim C8: `monthGridRange` returns a closed interval whose start is a
Sunday, whose end is a Saturday, whose length in days is a multiple of 7, and
which contains every instant of `viewDate`'s calendar month. -/
theorem monthGridRange_shape (v : Int) :
    getDay (monthGridRange v).start = 0 ∧
    getDay (monthGridRange v).endT = 6 ∧
    (dayNumber (monthGridRange v).endT - dayNumber (monthGridRange v).start + 1) % 7 = 0 ∧
    ∀ t, sameCalendarMonth t v →
      (monthGridRange v).start ≤ t ∧ t ≤ (monthGridRange v).endT := by
  refine ⟨?_, ?_, ?_, ?_⟩
  · show getDay (startOfWeek (startOfMonth v)) = 0
    unfold getDay startOfWeek dayNumber
    omega
  · show getDay (endOfWeek (endOfMonth v)) = 6
    unfold getDay endOfWeek dayNumber
    omega
  · show (dayNumber (endOfWeek (endOfMonth v)) -
        dayNumber (startOfWeek (startOfMonth v)) + 1) % 7 = 0
    unfold endOfWeek startOfWeek dayNumber
    omega
  · intro t ht
    exact ⟨le_trans (startOfWeek_le (startOfMonth v)) (startOfMonth_le_of_same t v ht),
      le_trans (le_endOfMonth_of_same t v ht) (endOfWeek_ge (endOfMonth v))⟩

/-- Witness for C8: the February 2024 grid contains noon of February 1. -/
theorem monthGridRange_shape_witness :
    (monthGridRange (civilMs 2024 2 15 0 0)).start ≤ civilMs 2024 2 1 12 30 ∧
      civilMs 2024 2 1 12 30 ≤ (monthGridRange (civilMs 2024 2 15 0 0)).endT :=
  (monthGridRange_shape (civilMs 2024 2 15 0 0)).2.2.2 (civilMs 2024 2 1 12 30) (by decide)

/-- State-threading model of the weekly collect loop.  The source executes
`r.weekdays.sort()` inside the week loop: JS `Array.prototype.sort` sorts the
array object held by the task IN PLACE and returns it, so the weekdays array
carried by the task is replaced by its sorted permutation on every iteration.
The second component of the result is the final contents of that array. -/
def weeklyCollectST (interval : Int) (weekdays : List Int) (w startT endT : Int)
    (id : String) : List Occ × List Int :=
  if h : 0 < interval ∧ ¬ isAfter w endT then
    ((weekdays.insertionSort (· ≤ ·)).filterMap
        (fun wd =>
          if ¬ isBefore (addDays w wd) startT ∧ ¬ isAfter (addDays w wd) endT then
            some ⟨addDays w wd, id⟩
          else Option.none) ++
      (weeklyCollectST interval (weekdays.insertionSort (· ≤ ·))
          (addDays w (7 * interval)) startT endT id).1,
      (weeklyCollectST interval (weekdays.insertionSort (· ≤ ·))
          (addDays w (7 * interval)) startT endT id).2)
  else ([], weekdays)
termination_by (endT + 1 - w).toNat
decreasing_by
  all_goals (unfold isAfter at h; unfold addDays; omega)

theorem weeklyCollectST_eq_pos (i : Int) (ws : List Int) (w s e : Int) (id : String)
    (h : 0 < i ∧ ¬ isAfter w e) :
    weeklyCollectST i ws w s e id =
      ((ws.insertionSort (· ≤ ·)).filterMap
          (fun wd =>
            if ¬ isBefore (addDays w wd) s ∧ ¬ isAfter (addDays w wd) e then
              some ⟨addDays w wd, id⟩
            else Option.none) ++
        (weeklyCollectST i (ws.insertionSort (· ≤ ·)) (addDays w (7 * i)) s e id).1,
        (weeklyCollectST i (ws.insertionSort (· ≤ ·)) (addDays w (7 * i)) s e id).2) := by
  conv_lhs => rw [weeklyCollectST]
  rw [dif_pos h]

/-- The weekdays array coming out of the weekly loop is either untouched (no
iteration ran) or sorted. -/
theorem weeklyCollectST_state (i : Int) (ws : List Int) (w s e : Int) (id : String) :
    (weeklyCollectST i ws w s e id).2 = ws ∨
      (weeklyCollectST i ws w s e id).2 = ws.insertionSort (· ≤ ·) := by
  induction ws, w, s, e, id using weeklyCollectST.induct i with
  | case1 ws w s e id h ih =>
    have hsnd : (weeklyCollectST i ws w s e id).2 =
        (weeklyCollectST i (ws.insertionSort (· ≤ ·)) (addDays w (7 * i)) s e id).2 := by
      rw [weeklyCollectST_eq_pos i ws w s e id h]
    rcases ih with h1 | h1
    · right
      rw [hsnd, h1]
    · right
      rw [hsnd, h1, List.Sorted.insertionSort_eq (List.sorted_insertionSort (· ≤ ·) ws)]
  | case2 ws w s e id h =>
    left
    conv_lhs => rw [weeklyCollectST]
    rw [dif_neg h]

/-- If the weekly loop runs at least one iteration, the weekdays array ends up
sorted. -/
theorem weeklyCollectST_run (i : Int) (ws : List Int) (w s e : Int) (id : String)
    (hi : 0 < i) (hw : ¬ isAfter w e) :
    (weeklyCollectST i ws w s e id).2 = ws.insertionSort (· ≤ ·) := by
  have hsnd : (weeklyCollectST i ws w s e id).2 =
      (weeklyCollectST i (ws.insertionSort (· ≤ ·)) (addDays w (7 * i)) s e id).2 := by
    rw [weeklyCollectST_eq_pos i ws w s e id ⟨hi, hw⟩]
  rcases weeklyCollectST_state i (ws.insertionSort (· ≤ ·)) (addDays w (7 * i)) s e id with
    h | h
  · rw [hsnd, h]
  · rw [hsnd, h, List.Sorted.insertionSort_eq (List.sorted_insertionSort (· ≤ ·) ws)]

/-- State-threading model of `expandRecurrence`: the occurrence list together
with the task as it stands after the call.  Only the weekly branch writes
through the task (the in-place `r.weekdays.sort()`); every other branch reads
the task without modifying it. -/
def expandRecurrenceST (task : Task) (startT endT : Int) : List Occ × Task :=
  match task.recurrence with
  | Recurrence.weekly interval weekdays =>
    ((weeklyCollectST interval weekdays (startOfWeek (max task.dueDate startT))
        startT endT task.id).1,
      { task with recurrence := (Recurrence.weekly interval
          (weeklyCollectST interval weekdays (startOfWeek (max task.dueDate startT))
              startT endT task.id).2) })
  | _ => (expandRecurrence task startT endT, task)

/-- Claim C2 fails: `expandRecurrence` is not free of side effects on `task`.
The weekly branch executes `r.weekdays.sort()`, which sorts the task's
weekdays array in place (lexicographically, which on single-digit weekday
values coincides with numeric order).  At the failing input — a weekly task
with weekdays `[3, 1]` expanded over the week of 2024-01-01 — the task holds
`[3, 1]` before the call and `[1, 3]` after it, so the post-call task differs
from the input task. -/
theorem expandRecurrence_mutates_task :
    (expandRecurrenceST ⟨"t2", civilMs 2024 1 1 0 0, Recurrence.weekly 1 [3, 1]⟩
        (civilMs 2024 1 1 0 0) (civilMs 2024 1 7 0 0)).2 ≠
      ⟨"t2", civilMs 2024 1 1 0 0, Recurrence.weekly 1 [3, 1]⟩ := by
  intro heq
  have h2 : (expandRecurrenceST ⟨"t2", civilMs 2024 1 1 0 0, Recurrence.weekly 1 [3, 1]⟩
      (civilMs 2024 1 1 0 0) (civilMs 2024 1 7 0 0)).2.recurrence =
      Recurrence.weekly 1
        ((weeklyCollectST 1 [3, 1]
            (startOfWeek (max (civilMs 2024 1 1 0 0) (civilMs 2024 1 1 0 0)))
            (civilMs 2024 1 1 0 0) (civilMs 2024 1 7 0 0) "t2").2) := rfl
  have hst : (weeklyCollectST 1 [3, 1]
      (startOfWeek (max (civilMs 2024 1 1 0 0) (civilMs 2024 1 1 0 0)))
      (civilMs 2024 1 1 0 0) (civilMs 2024 1 7 0 0) "t2").2 =
      ([3, 1] : List Int).insertionSort (· ≤ ·) :=
    weeklyCollectST_run 1 [3, 1]
      (startOfWeek (max (civilMs 2024 1 1 0 0) (civilMs 2024 1 1 0 0)))
      (civilMs 2024 1 1 0 0) (civilMs 2024 1 7 0 0) "t2" (by omega) (by decide)
  rw [heq, hst] at h2
  exact absurd h2 (by decide)

end TaskTracker
